import Mathlib

/-!
Shallow embedding of the `set` Go package: a sharded (bucketed) string set
with a global `Length` counter, in two variants (`Set`, the concurrent one
from `hash.go`, and `SetNonTS` from the non-threadsafe file), plus the free
set-algebra functions from `set_ts_operations.go`.

All operations are executed sequentially here, so the per-bucket locks and
the `atomic.AddUint64` calls of the Go source reduce to plain state passing;
the uint64 wrap-around of the counters is kept explicitly (`% 2^64`).
The external hash function `farm.Hash32` is an external collaborator and is
modelled as an abstract parameter `h : String → Nat` standing for the
(nonnegative) 32-bit hash value; `hash` reduces it modulo the bucket count
exactly as in `hash.go`.  Go map iteration order is unspecified; the map
backing each bucket is embedded as the list of its keys in insertion order,
and `range` over the map visits that list from the head.
-/

set_option maxHeartbeats 1000000

namespace SetSpec

/-- The uint64 modulus. -/
def U64 : Nat := 2 ^ 64

/-- Models `atomic.AddUint64`: addition of uint64 counters, wrapping at `2^64`. -/
def addU64 (a b : Nat) : Nat := (a + b) % U64

/-- The value `uint64(x)` for a (possibly negative) Go `int` value `x`. -/
def wrap64 (x : Int) : Nat := (x % (U64 : Int)).toNat

/-- Bitwise complement `^v` of a uint64 value `v`. -/
def not64 (n : Nat) : Nat := U64 - 1 - n % U64

/-- From `hash.go`: `func hash(s string, maxValue int) int` is
`int(farm.Hash32([]byte(s)) % uint32(maxValue))`; `h` stands for the
external `farm.Hash32`. -/
def hash (h : String → Nat) (s : String) (maxValue : Nat) : Nat := h s % maxValue

/-- From `set.go`: the bucket type `set` with its key-only map `Storage` and its
own uint64 counter `size`.  The map is embedded as the list of its keys. -/
structure set where
  Storage : List String
  size : Nat
deriving Repr, DecidableEq

/-- From `set.go`: `newSet()` returns an empty bucket. -/
def newSet : set := ⟨[], 0⟩

/-- From `set.go`: `(s *set) Add(items...) int`: inserts the items that are not
present, counts the insertions, adds the count to `size`, returns it. -/
def set.Add (b : set) (items : List String) : set × Nat :=
  let p := items.foldl
    (fun (acc : List String × Nat) item =>
      if item ∈ acc.1 then acc else (acc.1 ++ [item], acc.2 + 1))
    (b.Storage, 0)
  (⟨p.1, addU64 b.size p.2⟩, p.2)

/-- From `set.go`: `(s *set) Remove(items...) int`: deletes the items present,
counts the absent ones in `diff`, then runs
`atomic.AddUint64(&s.size, ^uint64(len(items)-diff-1))` and returns
`len(items) - diff`. -/
def set.Remove (b : set) (items : List String) : set × Nat :=
  let p := items.foldl
    (fun (acc : List String × Nat) item =>
      if item ∈ acc.1 then (acc.1.erase item, acc.2) else (acc.1, acc.2 + 1))
    (b.Storage, 0)
  (⟨p.1, addU64 b.size (not64 (wrap64 ((items.length : Int) - (p.2 : Int) - 1)))⟩,
   items.length - p.2)

/-- From `set.go`: `(s *set) remove(item)`: deletes one present item and runs
`atomic.AddUint64(&s.size, ^uint64(0))` (a decrement). -/
def set.remove (b : set) (item : String) : set :=
  if item ∈ b.Storage then ⟨b.Storage.erase item, addU64 b.size (not64 0)⟩ else b

/-- From `set.go`: `(s *set) Pop() string`: `for item := range s.Storage` takes the
first key of the map (here: the head of the list), removes it via
`s.remove`, and returns it; `""` on an empty bucket. -/
def set.Pop (b : set) : String × set :=
  match b.Storage with
  | [] => ("", b)
  | item :: _ => (item, set.remove b item)

/-- From `set.go`: `(s *set) Has(items...) bool`: `has` starts `true`, the loop
breaks at the first missing item. -/
def set.Has (b : set) (items : List String) : Bool :=
  match items with
  | [] => true
  | item :: rest => if item ∈ b.Storage then set.Has b rest else false

/-- From `set.go`: `(s *set) Size() int`: reads the bucket counter. -/
def set.Size (b : set) : Nat := b.size

/-- From `set.go`: `(s *set) Each(f)`: traversal of the bucket's keys that breaks
when the visitor returns `false`.  The Go visitor works by side effects; the
embedding threads its state `σ` explicitly: `f` maps a state and an item to
the new state and the `continue?` flag. -/
def set.EachS {σ : Type} (f : σ → String → σ × Bool) : List String → σ → σ
  | [], st => st
  | item :: rest, st =>
    let q := f st item
    if q.2 then set.EachS f rest q.1 else q.1

/-- From `set.go`: `(s *set) List() []string`: the keys of the map. -/
def set.List (b : set) : List String := b.Storage

/-- From `unnamed/part_000`: the sharded set
`SetNonTS { Sets []*set; Buckets int; Length uint64 }`; `hash.go` defines
`type Set SetNonTS`, so the single structure serves both variants. -/
structure SetNonTS where
  Sets : List set
  Buckets : Nat
  Length : Nat
deriving Repr, DecidableEq

/-- From `hash.go`: `(s Set) GetBucketID(item)`. -/
def Set.GetBucketID (h : String → Nat) (s : SetNonTS) (item : String) : Nat :=
  hash h item s.Buckets

/-- From `hash.go`: `(s *Set) GetSet(item)`. -/
def Set.GetSet (h : String → Nat) (s : SetNonTS) (item : String) : set :=
  s.Sets.getD (Set.GetBucketID h s item) newSet

/-- From `hash.go`: `(s *Set) Size() int`: atomic read of `Length`. -/
def Set.Size (s : SetNonTS) : Nat := s.Length

/-- One iteration of the `for _, item := range items` loop of `hash.go`
`(s *Set) Add`: `t := s.GetSet(item); count += t.Add(item)`, on the state
(current bucket array, running `count`); `n` is the bucket count. -/
def addStep (h : String → Nat) (n : Nat) (acc : List set × Nat) (item : String) :
    List set × Nat :=
  let t := acc.1.getD (hash h item n) newSet
  let q := set.Add t [item]
  (acc.1.set (hash h item n) q.1, acc.2 + q.2)

/-- From `hash.go`: `(s *Set) Add(items...)` (identical to
`(s *SetNonTS) Add` of `unnamed/part_000` once the bucket lock is erased):
each item goes to its bucket via `t.Add(item)`, the inserted counts are
summed and added to `Length` once at the end. -/
def Set.Add (h : String → Nat) (s : SetNonTS) (items : List String) : SetNonTS :=
  let p := items.foldl (addStep h s.Buckets) (s.Sets, 0)
  { s with Sets := p.1, Length := addU64 s.Length p.2 }

/-- One iteration of the `for _, item := range items` loop of `hash.go`
`(s *Set) Remove`: `set := s.GetSet(item); count += set.Remove(item)`. -/
def removeStep (h : String → Nat) (n : Nat) (acc : List set × Nat) (item : String) :
    List set × Nat :=
  let t := acc.1.getD (hash h item n) newSet
  let q := set.Remove t [item]
  (acc.1.set (hash h item n) q.1, acc.2 + q.2)

/-- From `hash.go`: `(s *Set) Remove(items...)` (identical to
`(s *SetNonTS) Remove` of `unnamed/part_000` modulo locks): per item
`count += set.Remove(item)`, then
`atomic.AddUint64(&s.Length, ^uint64(count - 1))`. -/
def Set.Remove (h : String → Nat) (s : SetNonTS) (items : List String) : SetNonTS :=
  let p := items.foldl (removeStep h s.Buckets) (s.Sets, 0)
  { s with Sets := p.1, Length := addU64 s.Length (not64 (wrap64 ((p.2 : Int) - 1))) }

/-- Inner loop of `hash.go` `(s *Set) Has`: `has` starts `true` and the loop
breaks at the first bucket miss. -/
def hasAll (h : String → Nat) (s : SetNonTS) : List String → Bool
  | [] => true
  | item :: rest =>
    if set.Has (Set.GetSet h s item) [item] then hasAll h s rest else false

/-- From `hash.go`: `(s *Set) Has(items...) bool` (identical to
`(s *SetNonTS) Has` of `unnamed/part_000` modulo the read lock): `false`
immediately when `Size() == 0`, otherwise the bucket-wise check. -/
def Set.Has (h : String → Nat) (s : SetNonTS) (items : List String) : Bool :=
  if Set.Size s = 0 then false else hasAll h s items

/-- The scan `i := 0; for set.Size() == 0 { i++; set = s.Sets[i] }` of
`hash.go` `Set.Pop`: index of the first bucket whose `size` counter is
nonzero; `none` when the loop would run past the end of the array (a Go
index-out-of-range panic). -/
def scanNonEmpty (l : List set) : Option Nat :=
  match l with
  | [] => none
  | b :: rest => if b.size = 0 then (scanNonEmpty rest).map (· + 1) else some 0

/-- From `hash.go`: `(s *Set) Pop() string`: `""` immediately when `Size() == 0`;
otherwise pop one item from the first bucket with a nonzero counter and
decrement `Length` only when the popped item is not `""`.  `none` models the
index-out-of-range panic of the scan. -/
def Set.Pop (s : SetNonTS) : Option (String × SetNonTS) :=
  if Set.Size s = 0 then some ("", s)
  else
    match scanNonEmpty s.Sets with
    | none => none
    | some i =>
      let q := set.Pop (s.Sets.getD i newSet)
      let s2 := { s with Sets := (s.Sets.set i q.2) }
      if q.1 ≠ "" then some (q.1, { s2 with Length := (addU64 s2.Length (not64 0)) })
      else some ("", s2)

/-- The `for true` loop of `unnamed/part_000` `(s *SetNonTS) Pop`, driven by
the list of bucket indices still to visit (`s.Buckets` is never modified by
the loop, so the remaining indices are known up front; an exhausted list is
the `i >= s.Buckets` exit returning `""`).  Per index: pop the bucket (the
pop mutates the bucket even when it yields `""`), and either return the
popped item with `Length` decremented, or move to the next index. -/
def popLoopIdx : List Nat → SetNonTS → String × SetNonTS
  | [], s => ("", s)
  | i :: rest, s =>
    let q := set.Pop (s.Sets.getD i newSet)
    if q.1 ≠ "" then
      let s2 : SetNonTS :=
        { s with Sets := (s.Sets.set i q.2), Length := (addU64 s.Length (not64 0)) }
      (q.1, s2)
    else popLoopIdx rest { s with Sets := (s.Sets.set i q.2) }

/-- From `unnamed/part_000`: `(s *SetNonTS) Pop() string`: starts the scan at
`i := rand.Intn(s.Buckets)` and walks the indices up to `s.Buckets - 1`;
the random draw is the parameter `r`. -/
def SetNonTS.Pop (r : Nat) (s : SetNonTS) : String × SetNonTS :=
  popLoopIdx (List.range' r (s.Buckets - r)) s

/-- From `hash.go`: `(s *Set) Each(f)` (identical to `(s *SetNonTS) Each` of
`unnamed/part_000`): `for i:=0; i < s.Buckets; i++` over the buckets, inner
traversal of each bucket's map with `break` on a `false` visitor — the
`break` leaves only the inner loop.  Stateful-visitor form, as for
`set.EachS`. -/
def Set.EachS {σ : Type} (f : σ → String → σ × Bool) (s : SetNonTS) (st : σ) : σ :=
  (List.range s.Buckets).foldl
    (fun a i => set.EachS f (s.Sets.getD i newSet).Storage a) st

/-- From `hash.go`: `(s *Set) Each(f)` for a pure visitor `f : String → Bool`:
the embedding returns the trace of items on which the visitor is invoked,
in invocation order (the Go visitor works only by side effects). -/
def Set.Each (s : SetNonTS) (f : String → Bool) : List String :=
  Set.EachS (fun acc item => (acc ++ [item], f item)) s []

/-- From `hash.go`: `(s *Set) Clear()`: per bucket, read its counter, replace it
with a fresh bucket and run `atomic.AddUint64(&s.Length, ^uint64(setLength-1))`. -/
def Set.Clear (s : SetNonTS) : SetNonTS :=
  (List.range s.Sets.length).foldl
    (fun a i =>
      let b := a.Sets.getD i newSet
      { a with Sets := (a.Sets.set i newSet),
               Length := (addU64 a.Length (not64 (wrap64 ((set.Size b : Int) - 1)))) })
    s

/-- From `hash.go`: `(s *Set) Merge(t)`: `for i:=0; i < s.Buckets; i++`
`s.Add(t.Sets[i].List()...)`. -/
def Set.Merge (h : String → Nat) (s t : SetNonTS) : SetNonTS :=
  (List.range s.Buckets).foldl
    (fun a i => Set.Add h a (set.List (t.Sets.getD i newSet))) s

/-- From `hash.go`: `(s *Set) Separate(t)`: `for i:=0; i < s.Buckets; i++`
`s.Remove(t.Sets[i].List()...)`. -/
def Set.Separate (h : String → Nat) (s t : SetNonTS) : SetNonTS :=
  (List.range s.Buckets).foldl
    (fun a i => Set.Remove h a (set.List (t.Sets.getD i newSet))) s

/-- From `hash.go`: `(s *Set) List() []string`: `for i:=0; i < s.Buckets; i++`
appending every bucket's keys. -/
def Set.List (s : SetNonTS) : List String :=
  (List.range s.Buckets).foldl (fun acc i => acc ++ (s.Sets.getD i newSet).Storage) []

/-- From `unnamed/part_000`: `NewNonTS(items...)`: 64 fresh buckets, then
`s.Add(items...)`. -/
def NewNonTS (h : String → Nat) (items : List String) : SetNonTS :=
  Set.Add h ⟨List.replicate 64 newSet, 64, 0⟩ items

/-- From `hash.go`: `New(items...)`: `(*Set)(NewNonTS())` followed by
`s.Add(items...)`, which builds the same state as `NewNonTS(items...)`. -/
def New (h : String → Nat) (items : List String) : SetNonTS := NewNonTS h items

/-- From `set_ts_operations.go`: `Union(sets...)`: a fresh result; for each set
in order, `Each` with the visitor
`if !result.Has(item) { result.Add(item) }; return true`. -/
def Union (h : String → Nat) (sets : List SetNonTS) : SetNonTS :=
  sets.foldl
    (fun result s =>
      Set.EachS
        (fun r item =>
          (if Set.Has h r [item] then r else Set.Add h r [item], true))
        s result)
    (New h [])

/-- The inner loop of `set_ts_operations.go` `Difference`: does any of the
sets `sets[1:]` contain `item` (with break at the first hit)? -/
def anySetHas (h : String → Nat) (l : List SetNonTS) (item : String) : Bool :=
  match l with
  | [] => false
  | s :: rest => if Set.Has h s [item] then true else anySetHas h rest item

/-- From `set_ts_operations.go`: `Difference(sets...)`: each item of `sets[0]`
goes into the result unless some set of `sets[1:]` has it.  `none` models
the index-out-of-range panic of `sets[0]` on an empty argument list. -/
def Difference (h : String → Nat) (sets : List SetNonTS) : Option SetNonTS :=
  match sets with
  | [] => none
  | s0 :: rest =>
    some (Set.EachS
      (fun result item =>
        (if anySetHas h rest item then result else Set.Add h result [item], true))
      s0 (New h []))

/-- The inner loop of `set_ts_operations.go` `Intersection`: do all sets
other than the one at index `si` contain `item` (with break at the first
miss)?  The second list argument carries the running index `i`. -/
def allOthersHave (h : String → Nat) (si : Nat) (item : String) :
    List SetNonTS → Nat → Bool
  | [], _ => true
  | s :: rest, i =>
    if i = si then allOthersHave h si item rest (i + 1)
    else if Set.Has h s [item] then allOthersHave h si item rest (i + 1)
    else false

/-- One iteration of the `for i, set := range sets` loop of
`set_ts_operations.go` `getSmallestSet`, on the state
`(smallestLen, smallestIndex, i)`: the update fires when
`set.Size() < smallestLen || smallestLen == 0`. -/
def smallStep (acc : Nat × Nat × Nat) (s : SetNonTS) : Nat × Nat × Nat :=
  let setSize := Set.Size s
  if setSize < acc.1 ∨ acc.1 = 0 then (setSize, acc.2.2, acc.2.2 + 1)
  else (acc.1, acc.2.1, acc.2.2 + 1)

/-- From `set_ts_operations.go`: `getSmallestSet(sets...)`: fold of `smallStep`
starting from `(0, 0, 0)`, returning the final `smallestIndex`. -/
def getSmallestSet (sets : List SetNonTS) : Nat :=
  (sets.foldl smallStep (0, 0, 0)).2.1

/-- The body of `set_ts_operations.go` `Intersection` for a given scan index
`si`: `Each` over `sets[si]`, adding to the result every item contained in
all the other sets. -/
def IntersectionFrom (h : String → Nat) (sets : List SetNonTS) (si : Nat) : SetNonTS :=
  Set.EachS
    (fun result item =>
      (if allOthersHave h si item sets 0 then Set.Add h result [item] else result, true))
    (sets.getD si ⟨[], 0, 0⟩) (New h [])

/-- From `set_ts_operations.go`: `Intersection(sets...)`: scan the set at index
`getSmallestSet(sets...)`.  `none` models the index-out-of-range panic on an
empty argument list. -/
def Intersection (h : String → Nat) (sets : List SetNonTS) : Option SetNonTS :=
  match sets with
  | [] => none
  | _ :: _ => some (IntersectionFrom h sets (getSmallestSet sets))

/-- Sum of the bucket storages' key counts of a bucket array. -/
def sumStorage (l : List set) : Nat := (l.map (fun b => b.Storage.length)).sum

/-- Well-formedness of one bucket at index `i` of an array of `n` buckets:
no duplicate keys, a truthful `size` counter, and every key hashes to `i`. -/
abbrev bucketWF (h : String → Nat) (n i : Nat) (b : set) : Prop :=
  b.Storage.Nodup ∧ b.size = b.Storage.length ∧ ∀ x ∈ b.Storage, hash h x n = i

/-- Well-formedness of a bucket array of `n` buckets. -/
abbrev BWF (h : String → Nat) (n : Nat) (l : List set) : Prop :=
  l.length = n ∧ 0 < n ∧ (∀ i < n, bucketWF h n i (l.getD i newSet)) ∧ sumStorage l < U64

/-- Well-formedness of a sharded set: a well-formed bucket array and a
`Length` counter equal to the total number of stored keys. -/
abbrev WF (h : String → Nat) (s : SetNonTS) : Prop :=
  BWF h s.Buckets s.Sets ∧ s.Length = sumStorage s.Sets

/-- A concrete admissible stand-in for the external `farm.Hash32`: every
item hashes to bucket 0. -/
def h0 : String → Nat := fun _ => 0

/-- A concrete admissible stand-in for the external `farm.Hash32` sending
`"b"` to bucket 1 and everything else to bucket 0. -/
def hb : String → Nat := fun s => if s = "b" then 1 else 0

/-- All keys stored across a bucket array, bucket by bucket. -/
def storages (l : List set) : List String := (l.map set.List).flatten

/-! ### Arithmetic of the uint64 counters -/

theorem u64_val : U64 = 18446744073709551616 := by norm_num [U64]

theorem addU64_of_lt {a b : Nat} (hab : a + b < U64) : addU64 a b = a + b :=
  Nat.mod_eq_of_lt hab

/-- The update `atomic.AddUint64(x, ^uint64(k-1))` subtracts `k` when the counter is
large enough and no wrap occurs. -/
theorem addU64_sub {a k : Nat} (ha : a < U64) (hk : k ≤ a) :
    addU64 a (not64 (wrap64 ((k : Int) - 1))) = a - k := by
  simp only [addU64, not64, wrap64, u64_val] at *
  omega

/-- The `Length--` pattern `atomic.AddUint64(x, ^uint64(0))`. -/
theorem addU64_dec {a : Nat} (ha : a < U64) (hk : 0 < a) :
    addU64 a (not64 0) = a - 1 := by
  simp only [addU64, not64, u64_val] at *
  omega

/-! ### Bucket-array helpers -/

theorem getD_set_self {l : List set} {i : Nat} (hi : i < l.length) (b : set) :
    (l.set i b).getD i newSet = b := by
  simp [List.getD_eq_getElem?_getD, List.getElem?_set_self hi]

theorem getD_set_ne {l : List set} {i j : Nat} (hij : i ≠ j) (b : set) :
    (l.set i b).getD j newSet = l.getD j newSet := by
  simp [List.getD_eq_getElem?_getD, List.getElem?_set_ne hij]

theorem set_getD_self {l : List set} {i : Nat} (hi : i < l.length) :
    l.set i (l.getD i newSet) = l := by
  induction l generalizing i with
  | nil => simp at hi
  | cons b t ih =>
    cases i with
    | zero => simp
    | succ m => simp only [List.getD_cons_succ, List.set_cons_succ, List.cons.injEq,
        true_and]; exact ih (by simpa using hi)

theorem sumStorage_append (l₁ l₂ : List set) :
    sumStorage (l₁ ++ l₂) = sumStorage l₁ + sumStorage l₂ := by
  simp [sumStorage]

theorem sumStorage_cons (b : set) (l : List set) :
    sumStorage (b :: l) = b.Storage.length + sumStorage l := by
  simp [sumStorage]

theorem storages_append (l₁ l₂ : List set) :
    storages (l₁ ++ l₂) = storages l₁ ++ storages l₂ := by
  simp [storages]

theorem storages_cons (b : set) (l : List set) :
    storages (b :: l) = b.Storage ++ storages l := by
  simp [storages, set.List]

theorem length_storages (l : List set) : (storages l).length = sumStorage l := by
  simp [storages, sumStorage, List.length_flatten, Function.comp_def, set.List]

theorem mem_storages {l : List set} {x : String} :
    x ∈ storages l ↔ ∃ b ∈ l, x ∈ b.Storage := by
  simp [storages, List.mem_flatten, set.List]

/-- Decomposition of a bucket array around index `i`, together with the
effect of `l.set i`. -/
theorem bucket_decomp (l : List set) (i : Nat) (hi : i < l.length) :
    ∃ l₁ l₂, l₁.length = i ∧ l = l₁ ++ l.getD i newSet :: l₂ ∧
      ∀ b, l.set i b = l₁ ++ b :: l₂ := by
  refine ⟨l.take i, l.drop (i + 1), ?_, ?_, fun b => List.set_eq_take_cons_drop b hi⟩
  · simp [List.length_take]
    omega
  · conv_lhs => rw [← set_getD_self hi]
    exact List.set_eq_take_cons_drop _ hi

/-! ### The flattened contents of a sharded set -/

theorem foldl_range_getD {σ : Type} (F : σ → set → σ) :
    ∀ (l : List set) (st : σ),
      (List.range l.length).foldl (fun a i => F a (l.getD i newSet)) st = l.foldl F st := by
  intro l
  induction l with
  | nil => intro st; rfl
  | cons b t ih =>
    intro st
    rw [List.length_cons, List.range_succ_eq_map]
    simp only [List.foldl_cons, List.getD_cons_zero, List.foldl_map, Nat.succ_eq_add_one,
      List.getD_cons_succ]
    exact ih (F st b)

theorem foldl_append_storage :
    ∀ (l : List set) (acc : List String),
      l.foldl (fun a b => a ++ b.Storage) acc = acc ++ storages l := by
  intro l
  induction l with
  | nil => intro acc; simp [storages]
  | cons b t ih => intro acc; simp [ih, storages_cons, List.append_assoc]

/-- Under the structural half of well-formedness, `Set.List` is the
concatenation of the buckets' storages. -/
theorem SetList_eq {s : SetNonTS} (hlen : s.Sets.length = s.Buckets) :
    Set.List s = storages s.Sets := by
  rw [Set.List, ← hlen]
  exact (foldl_range_getD (fun a b => a ++ b.Storage) s.Sets []).trans
    (by simpa using foldl_append_storage s.Sets [])

theorem mem_storages_iff_bucket {h : String → Nat} {n : Nat} {l : List set}
    (hb : BWF h n l) (x : String) :
    x ∈ storages l ↔ x ∈ (l.getD (hash h x n) newSet).Storage := by
  obtain ⟨hlen, hn, hwf, _⟩ := hb
  constructor
  · rw [mem_storages]
    rintro ⟨b, hbl, hxb⟩
    obtain ⟨j, hj, hbj⟩ := List.mem_iff_getElem.mp hbl
    have hgd : l.getD j newSet = b := by rw [List.getD_eq_getElem l newSet hj, hbj]
    have hroute := (hwf j (hlen ▸ hj)).2.2 x (hgd ▸ hxb)
    rw [hroute, hgd]
    exact hxb
  · intro hx
    have hlt : hash h x n < n := Nat.mod_lt _ hn
    have hlt' : hash h x n < l.length := by omega
    rw [mem_storages]
    refine ⟨l.getD (hash h x n) newSet, ?_, hx⟩
    rw [List.getD_eq_getElem l newSet hlt']
    exact List.getElem_mem hlt'

theorem storages_nodup {h : String → Nat} {n : Nat} {l : List set}
    (hb : BWF h n l) : (storages l).Nodup := by
  obtain ⟨hlen, hn, hwf, _⟩ := hb
  rw [storages, List.nodup_flatten]
  constructor
  · intro st hst
    rw [List.mem_map] at hst
    obtain ⟨b, hbl, rfl⟩ := hst
    obtain ⟨j, hj, hbj⟩ := List.mem_iff_getElem.mp hbl
    have hgd : l.getD j newSet = b := by rw [List.getD_eq_getElem l newSet hj, hbj]
    exact hgd ▸ (hwf j (hlen ▸ hj)).1
  · rw [List.pairwise_map]
    rw [List.pairwise_iff_getElem]
    intro i j hi hj hij
    intro x hxi hxj
    have hgi : l.getD i newSet = l[i] := List.getD_eq_getElem l newSet hi
    have hgj : l.getD j newSet = l[j] := List.getD_eq_getElem l newSet hj
    have hri := (hwf i (hlen ▸ hi)).2.2 x (by rw [hgi]; exact hxi)
    have hrj := (hwf j (hlen ▸ hj)).2.2 x (by rw [hgj]; exact hxj)
    omega

theorem SetList_nodup {h : String → Nat} {s : SetNonTS} (hwf : WF h s) :
    (Set.List s).Nodup := by
  rw [SetList_eq hwf.1.1]
  exact storages_nodup hwf.1

theorem SetList_length {h : String → Nat} {s : SetNonTS} (hwf : WF h s) :
    (Set.List s).length = s.Length := by
  rw [SetList_eq hwf.1.1, length_storages, hwf.2]

/-! ### Membership tests -/

theorem set_Has_single (b : set) (x : String) :
    set.Has b [x] = decide (x ∈ b.Storage) := by
  by_cases hx : x ∈ b.Storage <;> simp [set.Has, hx]

theorem Set_Has_single {h : String → Nat} {s : SetNonTS} (hwf : WF h s) (x : String) :
    Set.Has h s [x] = true ↔ x ∈ Set.List s := by
  rw [Set.Has]
  by_cases h0 : Set.Size s = 0
  · have : (Set.List s).length = 0 := by rw [SetList_length hwf]; exact h0
    simp [h0, List.length_eq_zero.mp this]
  · rw [if_neg h0]
    have : hasAll h s [x] = set.Has (Set.GetSet h s x) [x] := by
      by_cases hc : set.Has (Set.GetSet h s x) [x] = true <;> simp [hasAll, hc]
    rw [this, set_Has_single, SetList_eq hwf.1.1, mem_storages_iff_bucket hwf.1]
    simp [Set.GetSet, Set.GetBucketID]

/-! ### Single-item bucket operations -/

theorem wrap64_zero : wrap64 0 = 0 := by simp [wrap64]

theorem not64_wrap_neg_one : not64 (wrap64 (-1)) = 0 := by
  simp only [not64, wrap64, u64_val]
  omega

theorem set_Add_single (b : set) (x : String) :
    set.Add b [x] = if x ∈ b.Storage then (⟨b.Storage, addU64 b.size 0⟩, 0)
      else (⟨b.Storage ++ [x], addU64 b.size 1⟩, 1) := by
  by_cases hx : x ∈ b.Storage <;> simp [set.Add, hx]

theorem set_Remove_single (b : set) (x : String) :
    set.Remove b [x] = if x ∈ b.Storage
      then (⟨b.Storage.erase x, addU64 b.size (not64 0)⟩, 1)
      else (⟨b.Storage, addU64 b.size 0⟩, 0) := by
  by_cases hx : x ∈ b.Storage <;>
    simp [set.Remove, hx, wrap64_zero, not64_wrap_neg_one]

theorem bucket_le_sum {l : List set} {i : Nat} (hi : i < l.length) :
    (l.getD i newSet).Storage.length ≤ sumStorage l := by
  obtain ⟨l₁, l₂, -, hdec, -⟩ := bucket_decomp l i hi
  conv_rhs => rw [hdec]
  rw [sumStorage_append, sumStorage_cons]
  omega

theorem sumStorage_set {l : List set} {i : Nat} (hi : i < l.length) (b : set) :
    sumStorage (l.set i b) + (l.getD i newSet).Storage.length
      = sumStorage l + b.Storage.length := by
  obtain ⟨l₁, l₂, -, hdec, hset⟩ := bucket_decomp l i hi
  rw [hset b]
  conv_rhs => rw [hdec]
  rw [sumStorage_append, sumStorage_cons, sumStorage_append, sumStorage_cons]
  omega

/-! ### The removal fold -/

/-- Effect of one `Remove` loop iteration on a well-formed bucket array:
well-formedness is preserved, every bucket's storage is filtered by
`!= x` (buckets other than the target one never contain `x` by the routing
invariant, so the filter is the identity there), and the running count
absorbs exactly the shrinkage of the total storage. -/
theorem removeStep_spec {h : String → Nat} {n : Nat} {l : List set}
    (hb : BWF h n l) (x : String) (c : Nat) :
    BWF h n (removeStep h n (l, c) x).1 ∧
    (∀ j, ((removeStep h n (l, c) x).1.getD j newSet).Storage
        = (l.getD j newSet).Storage.filter (fun y => y != x)) ∧
    (removeStep h n (l, c) x).2 + sumStorage (removeStep h n (l, c) x).1
      = c + sumStorage l := by
  obtain ⟨hlen, hn, hwf, hsum⟩ := hb
  have hin : hash h x n < n := Nat.mod_lt _ hn
  have hil : hash h x n < l.length := by omega
  have hbi := hwf _ hin
  have hfilter_id : ∀ j, j ≠ hash h x n →
      (l.getD j newSet).Storage.filter (fun y => y != x) = (l.getD j newSet).Storage := by
    intro j hij
    rw [List.filter_eq_self]
    intro y hy
    simp only [bne_iff_ne, ne_eq]
    rintro rfl
    by_cases hjn : j < n
    · exact hij ((hwf j hjn).2.2 y hy).symm
    · rw [List.getD_eq_getElem?_getD, List.getElem?_eq_none (by omega)] at hy
      simp [newSet] at hy
  by_cases hx : x ∈ (l.getD (hash h x n) newSet).Storage
  · have hq := set_Remove_single (l.getD (hash h x n) newSet) x
    rw [if_pos hx] at hq
    have hrem : removeStep h n (l, c) x
        = (l.set (hash h x n) ⟨(l.getD (hash h x n) newSet).Storage.erase x,
            addU64 (l.getD (hash h x n) newSet).size (not64 0)⟩, c + 1) := by
      show (l.set (hash h x n) (set.Remove (l.getD (hash h x n) newSet) [x]).1,
            c + (set.Remove (l.getD (hash h x n) newSet) [x]).2) = _
      rw [hq]
    have hszlt : (l.getD (hash h x n) newSet).Storage.length < U64 :=
      lt_of_le_of_lt (bucket_le_sum hil) hsum
    have hszpos : 0 < (l.getD (hash h x n) newSet).Storage.length := List.length_pos.mpr
      (by rintro hnil; rw [hnil] at hx; simp at hx)
    have hsz : addU64 (l.getD (hash h x n) newSet).size (not64 0)
        = (l.getD (hash h x n) newSet).Storage.length - 1 := by
      rw [hbi.2.1]; exact addU64_dec hszlt hszpos
    have herase : (l.getD (hash h x n) newSet).Storage.erase x
        = (l.getD (hash h x n) newSet).Storage.filter (fun y => y != x) :=
      hbi.1.erase_eq_filter x
    have hel : ((l.getD (hash h x n) newSet).Storage.erase x).length
        = (l.getD (hash h x n) newSet).Storage.length - 1 := List.length_erase_of_mem hx
    have hstor : ∀ j, (((l.set (hash h x n) ⟨(l.getD (hash h x n) newSet).Storage.erase x,
          addU64 (l.getD (hash h x n) newSet).size (not64 0)⟩).getD j newSet).Storage)
        = (l.getD j newSet).Storage.filter (fun y => y != x) := by
      intro j
      by_cases hij : hash h x n = j
      · subst hij; rw [getD_set_self hil]; exact herase
      · rw [getD_set_ne hij, hfilter_id j (fun hc => hij hc.symm)]
    have hsumset := sumStorage_set (b := ⟨(l.getD (hash h x n) newSet).Storage.erase x,
      addU64 (l.getD (hash h x n) newSet).size (not64 0)⟩) hil
    refine ⟨⟨?_, hn, ?_, ?_⟩, ?_, ?_⟩
    · rw [hrem]; simpa using hlen
    · rw [hrem]
      intro j hj
      refine ⟨?_, ?_, ?_⟩
      · rw [hstor j]; exact (hwf j hj).1.filter _
      · by_cases hij : hash h x n = j
        · subst hij
          rw [getD_set_self hil]
          simp only [hsz, ← herase]
          exact hel.symm
        · rw [getD_set_ne hij]
          exact (hwf j hj).2.1
      · intro y hy
        rw [hstor j] at hy
        exact (hwf j hj).2.2 y (List.mem_of_mem_filter hy)
    · rw [hrem]
      dsimp only at hsumset ⊢
      omega
    · intro j; rw [hrem]; exact hstor j
    · rw [hrem]
      dsimp only at hsumset ⊢
      omega
  · have hsmall : (l.getD (hash h x n) newSet).size < U64 := by
      rw [hbi.2.1]; exact lt_of_le_of_lt (bucket_le_sum hil) hsum
    have hq := set_Remove_single (l.getD (hash h x n) newSet) x
    rw [if_neg hx] at hq
    have hbeq : (⟨(l.getD (hash h x n) newSet).Storage,
        addU64 (l.getD (hash h x n) newSet).size 0⟩ : set)
        = l.getD (hash h x n) newSet := by
      have h0 : addU64 (l.getD (hash h x n) newSet).size 0
          = (l.getD (hash h x n) newSet).size := addU64_of_lt (by omega)
      rw [h0]
    have hrem : removeStep h n (l, c) x = (l, c) := by
      show (l.set (hash h x n) (set.Remove (l.getD (hash h x n) newSet) [x]).1,
            c + (set.Remove (l.getD (hash h x n) newSet) [x]).2) = _
      rw [hq]
      simp only [hbeq, set_getD_self hil, Nat.add_zero]
    rw [hrem]
    refine ⟨⟨hlen, hn, hwf, hsum⟩, ?_, by dsimp only⟩
    intro j
    by_cases hij : j = hash h x n
    · subst hij
      symm
      rw [List.filter_eq_self]
      intro y hy
      simp only [bne_iff_ne, ne_eq]
      rintro rfl
      exact hx hy
    · rw [hfilter_id j hij]

/-- Pointwise bucket-storage equalities lift to the flattened contents. -/
theorem storages_congr {p : String → Bool} :
    ∀ {l l' : List set}, l'.length = l.length →
      (∀ j, (l'.getD j newSet).Storage = (l.getD j newSet).Storage.filter p) →
      storages l' = (storages l).filter p := by
  intro l
  induction l with
  | nil =>
    intro l' hlen _
    rw [List.length_nil, List.length_eq_zero] at hlen
    subst hlen
    simp [storages]
  | cons b t ih =>
    intro l' hlen hp
    match l', hlen with
    | b' :: t', hlen =>
      have h0 := hp 0
      simp only [List.getD_cons_zero] at h0
      have ht : ∀ j, (t'.getD j newSet).Storage = (t.getD j newSet).Storage.filter p := by
        intro j
        have := hp (j + 1)
        simpa only [List.getD_cons_succ] using this
      rw [storages_cons, storages_cons, List.filter_append, h0,
        ih (by simpa using hlen) ht]

/-- The whole `Remove` loop on a well-formed bucket array: well-formedness
is preserved, every bucket ends up filtered by "not a requested item", and
the final count is exactly the total storage shrinkage. -/
theorem removeFold_spec {h : String → Nat} {n : Nat} (items : List String) :
    ∀ (l : List set) (c : Nat), BWF h n l →
      BWF h n (items.foldl (removeStep h n) (l, c)).1 ∧
      (∀ j, ((items.foldl (removeStep h n) (l, c)).1.getD j newSet).Storage
          = (l.getD j newSet).Storage.filter (fun y => !(decide (y ∈ items)))) ∧
      (items.foldl (removeStep h n) (l, c)).2
          + sumStorage (items.foldl (removeStep h n) (l, c)).1
        = c + sumStorage l := by
  induction items with
  | nil =>
    intro l c hb
    refine ⟨hb, ?_, rfl⟩
    intro j
    simp
  | cons x rest ih =>
    intro l c hb
    rw [List.foldl_cons]
    obtain ⟨hb1, hst1, hsum1⟩ := removeStep_spec hb x c
    have hsplit : removeStep h n (l, c) x
        = ((removeStep h n (l, c) x).1, (removeStep h n (l, c) x).2) := rfl
    rw [hsplit]
    obtain ⟨hbF, hstF, hsumF⟩ :=
      ih (removeStep h n (l, c) x).1 (removeStep h n (l, c) x).2 hb1
    refine ⟨hbF, ?_, by omega⟩
    intro j
    rw [hstF j, hst1 j, List.filter_filter]
    apply List.filter_congr
    intro y hy
    by_cases h1 : y = x <;> by_cases h2 : y ∈ rest <;> simp [h1, h2]

/-- Equation unfolding `Set.Remove` to its loop. -/
theorem Set_Remove_eq (h : String → Nat) (s : SetNonTS) (items : List String) :
    Set.Remove h s items
      = { s with
          Sets := ((items.foldl (removeStep h s.Buckets) (s.Sets, 0)).1)
          Length := (addU64 s.Length (not64 (wrap64
            (((items.foldl (removeStep h s.Buckets) (s.Sets, 0)).2 : Int) - 1)))) } := rfl

/-- Claim C6 (confirmed): for every well-formed set and every list of
requested items (duplicates and absent items allowed), `Remove` decreases
`Length` by exactly the net change in bucket count, i.e. by the number of
distinct requested items that were present (`Set.List s` has no duplicates,
so the filtered length counts each such item once), and never by more than
the number of items requested; well-formedness is preserved. -/
theorem C6_remove_counter_spec (h : String → Nat) (s : SetNonTS)
    (items : List String) (hwf : WF h s) :
    (Set.Remove h s items).Length
        + ((Set.List s).filter (fun x => decide (x ∈ items))).length = s.Length ∧
    sumStorage (Set.Remove h s items).Sets
        + ((Set.List s).filter (fun x => decide (x ∈ items))).length
      = sumStorage s.Sets ∧
    ((Set.List s).filter (fun x => decide (x ∈ items))).length ≤ items.length ∧
    WF h (Set.Remove h s items) := by
  obtain ⟨hbwf, hLen⟩ := hwf
  obtain ⟨hbP, hstP, hsumP⟩ := removeFold_spec items s.Sets 0 hbwf
  have hlenP : (items.foldl (removeStep h s.Buckets) (s.Sets, 0)).1.length
      = s.Sets.length := by rw [hbP.1, hbwf.1]
  have hstor : storages (items.foldl (removeStep h s.Buckets) (s.Sets, 0)).1
      = (storages s.Sets).filter (fun y => !(decide (y ∈ items))) :=
    storages_congr hlenP hstP
  have hsumP1 : sumStorage (items.foldl (removeStep h s.Buckets) (s.Sets, 0)).1
      = ((storages s.Sets).filter (fun y => !(decide (y ∈ items)))).length := by
    rw [← length_storages, hstor]
  have hsplit := List.length_eq_length_filter_add
    (l := storages s.Sets) (fun y => decide (y ∈ items))
  have hlenstor := length_storages s.Sets
  have hk : (items.foldl (removeStep h s.Buckets) (s.Sets, 0)).2
      = ((storages s.Sets).filter (fun y => decide (y ∈ items))).length := by
    omega
  have hLlist : Set.List s = storages s.Sets := SetList_eq hbwf.1
  have hkle : (items.foldl (removeStep h s.Buckets) (s.Sets, 0)).2 ≤ s.Length := by
    rw [hLen]; omega
  have hsumlt : sumStorage s.Sets < U64 := hbwf.2.2.2
  have hLen2 : (Set.Remove h s items).Length
      = s.Length - (items.foldl (removeStep h s.Buckets) (s.Sets, 0)).2 := by
    rw [Set_Remove_eq]
    exact addU64_sub (by omega) hkle
  have hSets2 : (Set.Remove h s items).Sets
      = (items.foldl (removeStep h s.Buckets) (s.Sets, 0)).1 := by
    rw [Set_Remove_eq]
  have hkbound : ((Set.List s).filter (fun x => decide (x ∈ items))).length
      ≤ items.length := by
    have hnd : ((Set.List s).filter (fun x => decide (x ∈ items))).Nodup := by
      rw [hLlist]
      exact (storages_nodup hbwf).filter _
    calc ((Set.List s).filter (fun x => decide (x ∈ items))).length
        = ((Set.List s).filter (fun x => decide (x ∈ items))).toFinset.card :=
          (List.toFinset_card_of_nodup hnd).symm
      _ ≤ items.toFinset.card := by
          apply Finset.card_le_card
          intro x hx
          rw [List.mem_toFinset] at hx ⊢
          have := List.mem_filter.mp hx
          simpa using this.2
      _ ≤ items.length := List.toFinset_card_le items
  refine ⟨?_, ?_, hkbound, ?_, ?_⟩
  · rw [hLen2, hLlist, ← hk]
    omega
  · rw [hSets2, hLlist, ← hk]
    omega
  · rw [hSets2]
    have : (Set.Remove h s items).Buckets = s.Buckets := by rw [Set_Remove_eq]
    rw [this]
    exact hbP
  · rw [hLen2, hSets2, hLen]
    omega

/-- Witness for C6 at a concrete input: the set `{"a","b"}` (one bucket)
with the request `["a","x","a"]` removes exactly one item. -/
theorem C6_remove_counter_spec_witness :
    WF h0 (New h0 ["a", "b"]) ∧
    (Set.Remove h0 (New h0 ["a", "b"]) ["a", "x", "a"]).Length
        + ((Set.List (New h0 ["a", "b"])).filter
            (fun x => decide (x ∈ (["a", "x", "a"] : List String)))).length
      = (New h0 ["a", "b"]).Length :=
  ⟨by decide, (C6_remove_counter_spec h0 (New h0 ["a", "b"]) ["a", "x", "a"]
    (by decide)).1⟩

/-! ### Single-item `Add` -/

/-- Effect of one `Add` loop iteration on a well-formed bucket array. -/
theorem addStep_spec {h : String → Nat} {n : Nat} {l : List set}
    (hb : BWF h n l) (x : String) (c : Nat) (hroom : sumStorage l + 1 < U64) :
    BWF h n (addStep h n (l, c) x).1 ∧
    (∀ y, y ∈ storages (addStep h n (l, c) x).1 ↔ (y ∈ storages l ∨ y = x)) ∧
    sumStorage (addStep h n (l, c) x).1
      = sumStorage l + (if x ∈ storages l then 0 else 1) ∧
    (addStep h n (l, c) x).2 = c + (if x ∈ storages l then 0 else 1) := by
  obtain ⟨hlen, hn, hwf, hsum⟩ := hb
  have hin : hash h x n < n := Nat.mod_lt _ hn
  have hil : hash h x n < l.length := by omega
  have hbi := hwf _ hin
  have hmem := mem_storages_iff_bucket ⟨hlen, hn, hwf, hsum⟩ x
  by_cases hx : x ∈ (l.getD (hash h x n) newSet).Storage
  · have hxs : x ∈ storages l := hmem.mpr hx
    have hq := set_Add_single (l.getD (hash h x n) newSet) x
    rw [if_pos hx] at hq
    have hsmall : (l.getD (hash h x n) newSet).size < U64 := by
      rw [hbi.2.1]; exact lt_of_le_of_lt (bucket_le_sum hil) (by omega)
    have hbeq : (⟨(l.getD (hash h x n) newSet).Storage,
        addU64 (l.getD (hash h x n) newSet).size 0⟩ : set)
        = l.getD (hash h x n) newSet := by
      have h0 : addU64 (l.getD (hash h x n) newSet).size 0
          = (l.getD (hash h x n) newSet).size := addU64_of_lt (by omega)
      rw [h0]
    have hrem : addStep h n (l, c) x = (l, c) := by
      show (l.set (hash h x n) (set.Add (l.getD (hash h x n) newSet) [x]).1,
            c + (set.Add (l.getD (hash h x n) newSet) [x]).2) = _
      rw [hq]
      simp only [hbeq, set_getD_self hil, Nat.add_zero]
    rw [hrem, if_pos hxs]
    refine ⟨⟨hlen, hn, hwf, hsum⟩, ?_, by dsimp only; omega, by dsimp only; omega⟩
    intro y
    dsimp only
    constructor
    · exact Or.inl
    · rintro (hc | rfl)
      · exact hc
      · exact hxs
  · have hxs : x ∉ storages l := fun hc => hx (hmem.mp hc)
    have hq := set_Add_single (l.getD (hash h x n) newSet) x
    rw [if_neg hx] at hq
    have hsz1 : addU64 (l.getD (hash h x n) newSet).size 1
        = (l.getD (hash h x n) newSet).Storage.length + 1 := by
      rw [hbi.2.1]
      exact addU64_of_lt (by have := bucket_le_sum hil; omega)
    have hrem : addStep h n (l, c) x
        = (l.set (hash h x n) ⟨(l.getD (hash h x n) newSet).Storage ++ [x],
            addU64 (l.getD (hash h x n) newSet).size 1⟩, c + 1) := by
      show (l.set (hash h x n) (set.Add (l.getD (hash h x n) newSet) [x]).1,
            c + (set.Add (l.getD (hash h x n) newSet) [x]).2) = _
      rw [hq]
    have hsumset := sumStorage_set (b := ⟨(l.getD (hash h x n) newSet).Storage ++ [x],
        addU64 (l.getD (hash h x n) newSet).size 1⟩) hil
    have hb2 : BWF h n (l.set (hash h x n) ⟨(l.getD (hash h x n) newSet).Storage ++ [x],
        addU64 (l.getD (hash h x n) newSet).size 1⟩) := by
      refine ⟨by simpa using hlen, hn, ?_, ?_⟩
      · intro j hj
        by_cases hij : hash h x n = j
        · subst hij
          rw [getD_set_self hil]
          refine ⟨?_, ?_, ?_⟩
          · rw [List.nodup_append]
            exact ⟨hbi.1, List.nodup_singleton x,
              fun y hy => by simp; rintro rfl; exact hx hy⟩
          · dsimp only
            rw [hsz1]
            simp
          · intro y hy
            rcases List.mem_append.mp hy with hy | hy
            · exact hbi.2.2 y hy
            · simp at hy
              subst hy
              rfl
        · rw [getD_set_ne hij]
          exact hwf j hj
      · dsimp only at hsumset
        simp only [List.length_append, List.length_singleton] at hsumset
        omega
    rw [hrem, if_neg hxs]
    refine ⟨hb2, ?_, ?_, by omega⟩
    · intro y
      have hy2 := mem_storages_iff_bucket hb2 y
      have hy1 := mem_storages_iff_bucket ⟨hlen, hn, hwf, hsum⟩ y
      rw [hy2, hy1]
      by_cases hij : hash h y n = hash h x n
      · rw [hij, getD_set_self hil]
        constructor
        · intro hc
          rcases List.mem_append.mp hc with hc | hc
          · exact Or.inl hc
          · simp at hc; exact Or.inr hc
        · rintro (hc | rfl)
          · exact List.mem_append.mpr (Or.inl hc)
          · exact List.mem_append.mpr (Or.inr (by simp))
      · rw [getD_set_ne (fun hc => hij hc.symm)]
        constructor
        · exact Or.inl
        · rintro (hc | rfl)
          · exact hc
          · exact absurd rfl hij
    · dsimp only at hsumset ⊢
      simp only [List.length_append, List.length_singleton] at hsumset
      omega

/-- Effect of `Set.Add` with a single item, at the level of the sharded set. -/
theorem Set_Add_single_spec {h : String → Nat} {s : SetNonTS} (hwf : WF h s)
    (x : String) (hroom : s.Length + 1 < U64) :
    WF h (Set.Add h s [x]) ∧ (Set.Add h s [x]).Buckets = s.Buckets ∧
    (∀ y, y ∈ Set.List (Set.Add h s [x]) ↔ (y ∈ Set.List s ∨ y = x)) ∧
    (Set.Add h s [x]).Length = s.Length + (if x ∈ Set.List s then 0 else 1) := by
  obtain ⟨hbwf, hLen⟩ := hwf
  have hroom2 : sumStorage s.Sets + 1 < U64 := by omega
  obtain ⟨hb2, hmem, hsum2, hc2⟩ := addStep_spec hbwf x 0 hroom2
  have hadd : Set.Add h s [x]
      = { s with
          Sets := ((addStep h s.Buckets (s.Sets, 0) x).1)
          Length := (addU64 s.Length (addStep h s.Buckets (s.Sets, 0) x).2) } := rfl
  have hUlt : s.Length < U64 := by rw [hLen]; omega
  have hL2 : addU64 s.Length (addStep h s.Buckets (s.Sets, 0) x).2
      = s.Length + (if x ∈ storages s.Sets then 0 else 1) := by
    rw [hc2, Nat.zero_add]
    by_cases hxs : x ∈ storages s.Sets
    · rw [if_pos hxs]
      exact addU64_of_lt (by omega)
    · rw [if_neg hxs]
      exact addU64_of_lt (by omega)
  have hLlist : Set.List s = storages s.Sets := SetList_eq hbwf.1
  have hLlist2 : Set.List (Set.Add h s [x]) = storages (addStep h s.Buckets (s.Sets, 0) x).1 := by
    apply SetList_eq
    rw [hadd]
    exact hb2.1
  refine ⟨⟨?_, ?_⟩, by rw [hadd], ?_, ?_⟩
  · rw [hadd]
    exact hb2
  · rw [hadd]
    dsimp only
    rw [hL2, hsum2, hLen]
  · intro y
    rw [hLlist2, hLlist]
    exact hmem y
  · rw [hadd]
    dsimp only
    rw [hL2, hLlist]

/-! ### Traversal with an always-continuing visitor -/

theorem set_EachS_true {σ : Type} (g : σ → String → σ) :
    ∀ (l : List String) (st : σ),
      set.EachS (fun a it => (g a it, true)) l st = l.foldl g st := by
  intro l
  induction l with
  | nil => intro st; rfl
  | cons x t ih => intro st; simp only [set.EachS, List.foldl_cons, if_true]; exact ih _

theorem Set_EachS_true {σ : Type} (g : σ → String → σ) {s : SetNonTS}
    (hlen : s.Sets.length = s.Buckets) (st : σ) :
    Set.EachS (fun a it => (g a it, true)) s st = (Set.List s).foldl g st := by
  rw [Set.EachS, ← hlen]
  refine (foldl_range_getD
    (fun (a : σ) (b : set) => set.EachS (fun a it => (g a it, true)) b.Storage a)
    s.Sets st).trans ?_
  rw [SetList_eq hlen, storages, List.foldl_flatten, List.foldl_map]
  simp only [set_EachS_true g, set.List]

/-! ### The empty constructor -/

theorem New_nil_eq (h : String → Nat) :
    New h [] = ⟨List.replicate 64 newSet, 64, 0⟩ := rfl

theorem getD_replicate_newSet (i : Nat) :
    (List.replicate 64 newSet).getD i newSet = newSet := by
  rw [List.getD_eq_getElem?_getD, List.getElem?_replicate]
  by_cases hi : i < 64 <;> simp [hi]

theorem New_nil_WF (h : String → Nat) : WF h (New h []) := by
  rw [New_nil_eq]
  refine ⟨⟨by simp, by norm_num, ?_, ?_⟩, ?_⟩
  · intro i _
    rw [getD_replicate_newSet]
    refine ⟨by simp [newSet], by simp [newSet], by simp [newSet]⟩
  · simp [sumStorage, newSet, u64_val]
  · simp [sumStorage, newSet]

theorem New_nil_List (h : String → Nat) : Set.List (New h []) = [] := by
  rw [SetList_eq (by rw [New_nil_eq]; simp)]
  rw [New_nil_eq]
  simp [storages, set.List, newSet, List.map_replicate]

/-! ### Result-building folds of the set-algebra functions -/

/-- Folding the `Intersection`/`Difference` visitor shape (add the item when
a precomputed test holds) over an item list. -/
theorem foldAddIf_spec {h : String → Nat} (P : String → Bool) (xs : List String) :
    ∀ (r : SetNonTS), WF h r → sumStorage r.Sets + xs.length < U64 →
      WF h (xs.foldl (fun r it => if P it then Set.Add h r [it] else r) r) ∧
      (xs.foldl (fun r it => if P it then Set.Add h r [it] else r) r).Buckets
        = r.Buckets ∧
      ∀ y, (y ∈ Set.List (xs.foldl (fun r it => if P it then Set.Add h r [it] else r) r)
        ↔ (y ∈ Set.List r ∨ (y ∈ xs ∧ P y = true))) := by
  induction xs with
  | nil =>
    intro r hwf _
    refine ⟨hwf, rfl, fun y => by simp⟩
  | cons x t ih =>
    intro r hwf hroom
    rw [List.foldl_cons]
    by_cases hp : P x = true
    · rw [if_pos hp]
      have hroom1 : r.Length + 1 < U64 := by
        rw [hwf.2]
        simp only [List.length_cons] at hroom
        omega
      obtain ⟨hw1, hbk1, hmem1, hlen1⟩ := Set_Add_single_spec hwf x hroom1
      have hroomr : sumStorage (Set.Add h r [x]).Sets + t.length < U64 := by
        have he : (Set.Add h r [x]).Length = sumStorage (Set.Add h r [x]).Sets := hw1.2
        simp only [List.length_cons] at hroom
        rw [← he, hlen1, hwf.2]
        by_cases hc : x ∈ Set.List r <;> simp [hc] <;> omega
      obtain ⟨hwF, hbkF, hmemF⟩ := ih (Set.Add h r [x]) hw1 hroomr
      refine ⟨hwF, by rw [hbkF, hbk1], ?_⟩
      intro y
      rw [hmemF y, hmem1 y]
      constructor
      · rintro ((hc | rfl) | ⟨hc1, hc2⟩)
        · exact Or.inl hc
        · exact Or.inr ⟨List.mem_cons_self y t, hp⟩
        · exact Or.inr ⟨List.mem_cons_of_mem x hc1, hc2⟩
      · rintro (hc | ⟨hc1, hc2⟩)
        · exact Or.inl (Or.inl hc)
        · rcases List.mem_cons.mp hc1 with rfl | hc1
          · exact Or.inl (Or.inr rfl)
          · exact Or.inr ⟨hc1, hc2⟩
    · rw [if_neg hp]
      obtain ⟨hwF, hbkF, hmemF⟩ := ih r hwf
        (by simp only [List.length_cons] at hroom; omega)
      refine ⟨hwF, hbkF, ?_⟩
      intro y
      rw [hmemF y]
      constructor
      · rintro (hc | ⟨hc1, hc2⟩)
        · exact Or.inl hc
        · exact Or.inr ⟨List.mem_cons_of_mem x hc1, hc2⟩
      · rintro (hc | ⟨hc1, hc2⟩)
        · exact Or.inl hc
        · rcases List.mem_cons.mp hc1 with rfl | hc1
          · exact absurd hc2 hp
          · exact Or.inr ⟨hc1, hc2⟩

/-- Folding the `Union` visitor shape (add the item unless the result
already has it) over an item list. -/
theorem foldUnionStep_spec {h : String → Nat} (xs : List String) :
    ∀ (r : SetNonTS), WF h r → sumStorage r.Sets + xs.length < U64 →
      WF h (xs.foldl
        (fun r it => if Set.Has h r [it] then r else Set.Add h r [it]) r) ∧
      (xs.foldl (fun r it => if Set.Has h r [it] then r else Set.Add h r [it]) r).Buckets
        = r.Buckets ∧
      ∀ y, (y ∈ Set.List (xs.foldl
          (fun r it => if Set.Has h r [it] then r else Set.Add h r [it]) r)
        ↔ (y ∈ Set.List r ∨ y ∈ xs)) := by
  induction xs with
  | nil =>
    intro r hwf _
    refine ⟨hwf, rfl, fun y => by simp⟩
  | cons x t ih =>
    intro r hwf hroom
    rw [List.foldl_cons]
    by_cases hx : x ∈ Set.List r
    · rw [if_pos ((Set_Has_single hwf x).mpr hx)]
      obtain ⟨hwF, hbkF, hmemF⟩ := ih r hwf
        (by simp only [List.length_cons] at hroom; omega)
      refine ⟨hwF, hbkF, ?_⟩
      intro y
      rw [hmemF y]
      constructor
      · rintro (hc | hc)
        · exact Or.inl hc
        · exact Or.inr (List.mem_cons_of_mem x hc)
      · rintro (hc | hc)
        · exact Or.inl hc
        · rcases List.mem_cons.mp hc with rfl | hc
          · exact Or.inl hx
          · exact Or.inr hc
    · have hhas : ¬ (Set.Has h r [x] = true) := fun hc => hx ((Set_Has_single hwf x).mp hc)
      rw [if_neg hhas]
      have hroom1 : r.Length + 1 < U64 := by
        rw [hwf.2]
        simp only [List.length_cons] at hroom
        omega
      obtain ⟨hw1, hbk1, hmem1, hlen1⟩ := Set_Add_single_spec hwf x hroom1
      have hroomr : sumStorage (Set.Add h r [x]).Sets + t.length < U64 := by
        have he : (Set.Add h r [x]).Length = sumStorage (Set.Add h r [x]).Sets := hw1.2
        simp only [List.length_cons] at hroom
        rw [← he, hlen1, hwf.2]
        simp [hx]
        omega
      obtain ⟨hwF, hbkF, hmemF⟩ := ih (Set.Add h r [x]) hw1 hroomr
      refine ⟨hwF, by rw [hbkF, hbk1], ?_⟩
      intro y
      rw [hmemF y, hmem1 y]
      constructor
      · rintro ((hc | rfl) | hc)
        · exact Or.inl hc
        · exact Or.inr (List.mem_cons_self y t)
        · exact Or.inr (List.mem_cons_of_mem x hc)
      · rintro (hc | hc)
        · exact Or.inl (Or.inl hc)
        · rcases List.mem_cons.mp hc with rfl | hc
          · exact Or.inl (Or.inr rfl)
          · exact Or.inr hc

/-- Claim C9 (confirmed): for all well-formed sets `a` and `b` (with counters
below the uint64 bound), `Union(a,b).Size() <= a.Size() + b.Size()`, with
equality exactly when `a` and `b` are disjoint. -/
theorem C9_union_size (h : String → Nat) (a b : SetNonTS)
    (hwa : WF h a) (hwb : WF h b) (hroom : Set.Size a + Set.Size b < U64) :
    Set.Size (Union h [a, b]) ≤ Set.Size a + Set.Size b ∧
    (Set.Size (Union h [a, b]) = Set.Size a + Set.Size b ↔
      ∀ x, x ∈ Set.List a → x ∉ Set.List b) := by
  have hU1 : Set.EachS
      (fun r item => (if Set.Has h r [item] then r else Set.Add h r [item], true))
      a (New h [])
      = (Set.List a).foldl
          (fun r it => if Set.Has h r [it] then r else Set.Add h r [it]) (New h []) :=
    Set_EachS_true _ hwa.1.1 _
  have hbase : (New h []).Length = 0 := by rw [New_nil_eq]
  have hbaseSum : sumStorage (New h []).Sets = 0 := by
    have := (New_nil_WF h).2
    omega
  have hlenA : (Set.List a).length = Set.Size a := SetList_length hwa
  have hlenB : (Set.List b).length = Set.Size b := SetList_length hwb
  have hug : Set.Size a < U64 := by omega
  obtain ⟨hw1, hbk1, hmem1⟩ := foldUnionStep_spec (Set.List a) (New h [])
    (New_nil_WF h) (by rw [hbaseSum]; omega)
  have hmem1A : ∀ y, y ∈ Set.List ((Set.List a).foldl
      (fun r it => if Set.Has h r [it] then r else Set.Add h r [it]) (New h []))
      ↔ y ∈ Set.List a := by
    intro y
    rw [hmem1 y, New_nil_List]
    simp
  have hnda : (Set.List a).Nodup := SetList_nodup hwa
  have hndb : (Set.List b).Nodup := SetList_nodup hwb
  have hnd1 : (Set.List ((Set.List a).foldl
      (fun r it => if Set.Has h r [it] then r else Set.Add h r [it]) (New h []))).Nodup :=
    SetList_nodup hw1
  have hlen1 : (Set.List ((Set.List a).foldl
      (fun r it => if Set.Has h r [it] then r else Set.Add h r [it]) (New h []))).length
      = (Set.List a).length := by
    rw [← List.toFinset_card_of_nodup hnd1, ← List.toFinset_card_of_nodup hnda]
    congr 1
    apply Finset.ext
    intro y
    rw [List.mem_toFinset, List.mem_toFinset, hmem1A y]
  have hsum1 : sumStorage ((Set.List a).foldl
      (fun r it => if Set.Has h r [it] then r else Set.Add h r [it]) (New h [])).Sets
      = Set.Size a := by
    have := hw1.2
    have := SetList_length hw1
    omega
  obtain ⟨hw2, hbk2, hmem2⟩ := foldUnionStep_spec (Set.List b)
    ((Set.List a).foldl
      (fun r it => if Set.Has h r [it] then r else Set.Add h r [it]) (New h []))
    hw1 (by rw [hsum1, hlenB]; omega)
  have hU2 : Set.EachS
      (fun r item => (if Set.Has h r [item] then r else Set.Add h r [item], true))
      b ((Set.List a).foldl
          (fun r it => if Set.Has h r [it] then r else Set.Add h r [it]) (New h []))
      = (Set.List b).foldl
          (fun r it => if Set.Has h r [it] then r else Set.Add h r [it])
          ((Set.List a).foldl
            (fun r it => if Set.Has h r [it] then r else Set.Add h r [it]) (New h [])) :=
    Set_EachS_true _ hwb.1.1 _
  have hUnion : Union h [a, b]
      = (Set.List b).foldl
          (fun r it => if Set.Has h r [it] then r else Set.Add h r [it])
          ((Set.List a).foldl
            (fun r it => if Set.Has h r [it] then r else Set.Add h r [it]) (New h [])) := by
    show Set.EachS
      (fun r item => (if Set.Has h r [item] then r else Set.Add h r [item], true)) b
      (Set.EachS
        (fun r item => (if Set.Has h r [item] then r else Set.Add h r [item], true))
        a (New h [])) = _
    rw [hU1, hU2]
  have hmemU : ∀ y, y ∈ Set.List (Union h [a, b])
      ↔ (y ∈ Set.List a ∨ y ∈ Set.List b) := by
    intro y
    rw [hUnion, hmem2 y, hmem1A y]
  have hwU : WF h (Union h [a, b]) := by rw [hUnion]; exact hw2
  have hndU : (Set.List (Union h [a, b])).Nodup := SetList_nodup hwU
  have hftU : (Set.List (Union h [a, b])).toFinset
      = (Set.List a).toFinset ∪ (Set.List b).toFinset := by
    apply Finset.ext
    intro y
    rw [Finset.mem_union, List.mem_toFinset, List.mem_toFinset, List.mem_toFinset]
    exact hmemU y
  have hSizeU : Set.Size (Union h [a, b])
      = ((Set.List a).toFinset ∪ (Set.List b).toFinset).card := by
    rw [← hftU, List.toFinset_card_of_nodup hndU]
    exact (SetList_length hwU).symm
  have hSizeA : Set.Size a = (Set.List a).toFinset.card := by
    rw [List.toFinset_card_of_nodup hnda, hlenA]
  have hSizeB : Set.Size b = (Set.List b).toFinset.card := by
    rw [List.toFinset_card_of_nodup hndb, hlenB]
  have hcui := Finset.card_union_add_card_inter (Set.List a).toFinset (Set.List b).toFinset
  constructor
  · rw [hSizeU, hSizeA, hSizeB]
    omega
  · rw [hSizeU, hSizeA, hSizeB]
    constructor
    · intro heq x hxa hxb
      have hzero : ((Set.List a).toFinset ∩ (Set.List b).toFinset).card = 0 := by omega
      rw [Finset.card_eq_zero] at hzero
      have : x ∈ (Set.List a).toFinset ∩ (Set.List b).toFinset :=
        Finset.mem_inter.mpr ⟨List.mem_toFinset.mpr hxa, List.mem_toFinset.mpr hxb⟩
      rw [hzero] at this
      simp at this
    · intro hdisj
      have hzero : (Set.List a).toFinset ∩ (Set.List b).toFinset = ∅ := by
        apply Finset.eq_empty_iff_forall_not_mem.mpr
        intro x hx
        obtain ⟨hx1, hx2⟩ := Finset.mem_inter.mp hx
        exact hdisj x (List.mem_toFinset.mp hx1) (List.mem_toFinset.mp hx2)
      rw [hzero] at hcui
      simpa using hcui

/-- Witness for C9 at a concrete input: `a = {"a"}`, `b = {"a","b"}`
(not disjoint, so the size of the union is strictly below the sum). -/
theorem C9_union_size_witness :
    (WF h0 (New h0 ["a"]) ∧ WF h0 (New h0 ["a", "b"]) ∧
      Set.Size (New h0 ["a"]) + Set.Size (New h0 ["a", "b"]) < U64) ∧
    Set.Size (Union h0 [New h0 ["a"], New h0 ["a", "b"]])
      ≤ Set.Size (New h0 ["a"]) + Set.Size (New h0 ["a", "b"]) :=
  ⟨⟨by decide, by decide, by decide⟩,
    (C9_union_size h0 (New h0 ["a"]) (New h0 ["a", "b"])
      (by decide) (by decide) (by decide)).1⟩

/-! ### `Difference` -/

theorem anySetHas_iff {h : String → Nat} :
    ∀ {l : List SetNonTS}, (∀ t ∈ l, WF h t) → ∀ (x : String),
      (anySetHas h l x = true ↔ ∃ t ∈ l, x ∈ Set.List t) := by
  intro l
  induction l with
  | nil => intro _ x; simp [anySetHas]
  | cons s rest ih =>
    intro hwf x
    have hs := hwf s (List.mem_cons_self s rest)
    by_cases hc : Set.Has h s [x] = true
    · simp only [anySetHas, hc, if_true, true_iff]
      exact ⟨s, List.mem_cons_self s rest, (Set_Has_single hs x).mp hc⟩
    · have hstep : anySetHas h (s :: rest) x = anySetHas h rest x := by
        simp [anySetHas, hc]
      rw [hstep, ih (fun t ht => hwf t (List.mem_cons_of_mem s ht)) x]
      constructor
      · rintro ⟨t, ht, hxt⟩
        exact ⟨t, List.mem_cons_of_mem s ht, hxt⟩
      · rintro ⟨t, ht, hxt⟩
        rcases List.mem_cons.mp ht with rfl | ht
        · exact absurd ((Set_Has_single hs x).mpr hxt) hc
        · exact ⟨t, ht, hxt⟩

/-- Folding the `Difference` visitor shape (skip the item when a precomputed
test holds, otherwise add it) over an item list. -/
theorem foldSkipIf_spec {h : String → Nat} (Q : String → Bool) (xs : List String) :
    ∀ (r : SetNonTS), WF h r → sumStorage r.Sets + xs.length < U64 →
      WF h (xs.foldl (fun r it => if Q it then r else Set.Add h r [it]) r) ∧
      (xs.foldl (fun r it => if Q it then r else Set.Add h r [it]) r).Buckets
        = r.Buckets ∧
      ∀ y, (y ∈ Set.List (xs.foldl (fun r it => if Q it then r else Set.Add h r [it]) r)
        ↔ (y ∈ Set.List r ∨ (y ∈ xs ∧ Q y = false))) := by
  induction xs with
  | nil =>
    intro r hwf _
    refine ⟨hwf, rfl, fun y => by simp⟩
  | cons x t ih =>
    intro r hwf hroom
    rw [List.foldl_cons]
    by_cases hp : Q x = true
    · rw [if_pos hp]
      obtain ⟨hwF, hbkF, hmemF⟩ := ih r hwf
        (by simp only [List.length_cons] at hroom; omega)
      refine ⟨hwF, hbkF, ?_⟩
      intro y
      rw [hmemF y]
      constructor
      · rintro (hc | ⟨hc1, hc2⟩)
        · exact Or.inl hc
        · exact Or.inr ⟨List.mem_cons_of_mem x hc1, hc2⟩
      · rintro (hc | ⟨hc1, hc2⟩)
        · exact Or.inl hc
        · rcases List.mem_cons.mp hc1 with rfl | hc1
          · rw [hp] at hc2; cases hc2
          · exact Or.inr ⟨hc1, hc2⟩
    · rw [if_neg hp]
      have hroom1 : r.Length + 1 < U64 := by
        rw [hwf.2]
        simp only [List.length_cons] at hroom
        omega
      obtain ⟨hw1, hbk1, hmem1, hlen1⟩ := Set_Add_single_spec hwf x hroom1
      have hroomr : sumStorage (Set.Add h r [x]).Sets + t.length < U64 := by
        have he : (Set.Add h r [x]).Length = sumStorage (Set.Add h r [x]).Sets := hw1.2
        simp only [List.length_cons] at hroom
        rw [← he, hlen1, hwf.2]
        by_cases hc : x ∈ Set.List r <;> simp [hc] <;> omega
      obtain ⟨hwF, hbkF, hmemF⟩ := ih (Set.Add h r [x]) hw1 hroomr
      refine ⟨hwF, by rw [hbkF, hbk1], ?_⟩
      intro y
      rw [hmemF y, hmem1 y]
      constructor
      · rintro ((hc | rfl) | ⟨hc1, hc2⟩)
        · exact Or.inl hc
        · exact Or.inr ⟨List.mem_cons_self y t, Bool.eq_false_iff.mpr hp⟩
        · exact Or.inr ⟨List.mem_cons_of_mem x hc1, hc2⟩
      · rintro (hc | ⟨hc1, hc2⟩)
        · exact Or.inl (Or.inl hc)
        · rcases List.mem_cons.mp hc1 with rfl | hc1
          · exact Or.inl (Or.inr rfl)
          · exact Or.inr ⟨hc1, hc2⟩

/-- Claim C8 (confirmed): for every non-empty list of well-formed input
sets, `Difference` returns a new set whose members are exactly the items of
`sets[0]` present in none of `sets[1:]`; `Difference(a)` has exactly the
members and the size of `a`, and `Difference(a,a)` is always empty. -/
theorem C8_difference_spec (h : String → Nat) :
    (∀ (sets : List SetNonTS) (s0 : SetNonTS) (rest : List SetNonTS),
      sets = s0 :: rest → (∀ t ∈ sets, WF h t) →
      ∃ r, Difference h sets = some r ∧ WF h r ∧
        ∀ x, (x ∈ Set.List r ↔ (x ∈ Set.List s0 ∧ ∀ t ∈ rest, x ∉ Set.List t))) ∧
    (∀ a, WF h a → ∃ r, Difference h [a] = some r ∧
      (∀ x, x ∈ Set.List r ↔ x ∈ Set.List a) ∧ Set.Size r = Set.Size a) ∧
    (∀ a, WF h a → ∃ r, Difference h [a, a] = some r ∧
      Set.List r = [] ∧ Set.Size r = 0) := by
  have main : ∀ (sets : List SetNonTS) (s0 : SetNonTS) (rest : List SetNonTS),
      sets = s0 :: rest → (∀ t ∈ sets, WF h t) →
      ∃ r, Difference h sets = some r ∧ WF h r ∧
        ∀ x, (x ∈ Set.List r ↔ (x ∈ Set.List s0 ∧ ∀ t ∈ rest, x ∉ Set.List t)) := by
    intro sets s0 rest hs hwf
    subst hs
    have hw0 : WF h s0 := hwf s0 (List.mem_cons_self s0 rest)
    have hwrest : ∀ t ∈ rest, WF h t := fun t ht => hwf t (List.mem_cons_of_mem s0 ht)
    have hE : Set.EachS
        (fun result item =>
          (if anySetHas h rest item then result else Set.Add h result [item], true))
        s0 (New h [])
        = (Set.List s0).foldl
            (fun result item =>
              if anySetHas h rest item then result else Set.Add h result [item])
            (New h []) :=
      Set_EachS_true _ hw0.1.1 _
    have hbaseSum : sumStorage (New h []).Sets = 0 := by
      have := (New_nil_WF h).2
      have : (New h []).Length = 0 := by rw [New_nil_eq]
      omega
    have hroom : sumStorage (New h []).Sets + (Set.List s0).length < U64 := by
      rw [hbaseSum, SetList_length hw0, hw0.2]
      have := hw0.1.2.2.2
      omega
    obtain ⟨hwF, -, hmemF⟩ := foldSkipIf_spec (fun it => anySetHas h rest it)
      (Set.List s0) (New h []) (New_nil_WF h) hroom
    refine ⟨_, rfl, ?_, ?_⟩
    · show WF h (Set.EachS _ s0 (New h []))
      rw [hE]
      exact hwF
    · intro x
      show x ∈ Set.List (Set.EachS _ s0 (New h [])) ↔ _
      rw [hE, hmemF x, New_nil_List]
      simp only [List.not_mem_nil, false_or]
      constructor
      · rintro ⟨hx0, hany⟩
        refine ⟨hx0, ?_⟩
        intro t ht hxt
        have : anySetHas h rest x = true := (anySetHas_iff hwrest x).mpr ⟨t, ht, hxt⟩
        rw [this] at hany
        cases hany
      · rintro ⟨hx0, hnone⟩
        refine ⟨hx0, ?_⟩
        rw [Bool.eq_false_iff]
        intro hc
        obtain ⟨t, ht, hxt⟩ := (anySetHas_iff hwrest x).mp hc
        exact hnone t ht hxt
  refine ⟨main, ?_, ?_⟩
  · intro a hwa
    obtain ⟨r, hr, hwr, hmem⟩ := main [a] a [] rfl (by simpa using hwa)
    refine ⟨r, hr, ?_, ?_⟩
    · intro x
      rw [hmem x]
      simp
    · have hnda := SetList_nodup hwa
      have hndr := SetList_nodup hwr
      show r.Length = a.Length
      rw [← SetList_length hwr, ← SetList_length hwa,
        ← List.toFinset_card_of_nodup hndr, ← List.toFinset_card_of_nodup hnda]
      congr 1
      apply Finset.ext
      intro y
      rw [List.mem_toFinset, List.mem_toFinset, hmem y]
      simp
  · intro a hwa
    obtain ⟨r, hr, hwr, hmem⟩ := main [a, a] a [a] rfl (by simpa using hwa)
    have hnil : Set.List r = [] := by
      rw [List.eq_nil_iff_forall_not_mem]
      intro x hx
      obtain ⟨hx1, hx2⟩ := (hmem x).mp hx
      exact hx2 a (List.mem_cons_self a []) hx1
    refine ⟨r, hr, hnil, ?_⟩
    have := SetList_length hwr
    rw [hnil] at this
    simpa [Set.Size] using this.symm

/-- Witness for C8 at concrete inputs. -/
theorem C8_difference_spec_witness :
    (∀ t ∈ [New h0 ["a", "b"], New h0 ["b"]], WF h0 t) ∧
    ∃ r, Difference h0 [New h0 ["a", "b"], New h0 ["b"]] = some r ∧ WF h0 r ∧
      ∀ x, (x ∈ Set.List r ↔ (x ∈ Set.List (New h0 ["a", "b"]) ∧
        ∀ t ∈ [New h0 ["b"]], x ∉ Set.List t)) :=
  ⟨by decide, (C8_difference_spec h0).1 [New h0 ["a", "b"], New h0 ["b"]]
    (New h0 ["a", "b"]) [New h0 ["b"]] rfl (by decide)⟩

/-! ### `Intersection` -/

theorem allOthersHave_iff {h : String → Nat} (si : Nat) (x : String) :
    ∀ (l : List SetNonTS) (i0 : Nat),
      (allOthersHave h si x l i0 = true ↔
        ∀ k, k < l.length → i0 + k ≠ si →
          Set.Has h (l.getD k ⟨[], 0, 0⟩) [x] = true) := by
  intro l
  induction l with
  | nil => intro i0; simp [allOthersHave]
  | cons s rest ih =>
    intro i0
    by_cases h0 : i0 = si
    · have hstep : allOthersHave h si x (s :: rest) i0
          = allOthersHave h si x rest (i0 + 1) := by
        simp [allOthersHave, h0]
      rw [hstep, ih (i0 + 1)]
      constructor
      · intro hk k hklen hkne
        cases k with
        | zero => exact absurd h0 (by simpa using hkne)
        | succ m =>
          rw [List.getD_cons_succ]
          exact hk m (by simpa using hklen) (by omega)
      · intro hk k hklen hkne
        have := hk (k + 1) (by simpa using hklen) (by omega)
        rwa [List.getD_cons_succ] at this
    · by_cases hx : Set.Has h s [x] = true
      · have hstep : allOthersHave h si x (s :: rest) i0
            = allOthersHave h si x rest (i0 + 1) := by
          simp [allOthersHave, h0, hx]
        rw [hstep, ih (i0 + 1)]
        constructor
        · intro hk k hklen hkne
          cases k with
          | zero => simpa using hx
          | succ m =>
            rw [List.getD_cons_succ]
            exact hk m (by simpa using hklen) (by omega)
        · intro hk k hklen hkne
          have := hk (k + 1) (by simpa using hklen) (by omega)
          rwa [List.getD_cons_succ] at this
      · have hstep : allOthersHave h si x (s :: rest) i0 = false := by
          simp [allOthersHave, h0, hx]
        rw [hstep]
        simp only [Bool.false_eq_true, false_iff, not_forall]
        refine ⟨0, by simp, by simpa using h0, ?_⟩
        simpa using hx
  
theorem smallFold_inv :
    ∀ (l : List SetNonTS) (a b i : Nat), b < i →
      (l.foldl smallStep (a, b, i)).2.1 < (l.foldl smallStep (a, b, i)).2.2 ∧
      (l.foldl smallStep (a, b, i)).2.2 = i + l.length := by
  intro l
  induction l with
  | nil => intro a b i hbi; exact ⟨hbi, by simp⟩
  | cons s t ih =>
    intro a b i hbi
    rw [List.foldl_cons]
    have hstep : smallStep (a, b, i) s
        = if Set.Size s < a ∨ a = 0 then (Set.Size s, i, i + 1) else (a, b, i + 1) := by
      simp [smallStep]
    rw [hstep]
    by_cases hc : Set.Size s < a ∨ a = 0
    · rw [if_pos hc]
      obtain ⟨h1, h2⟩ := ih (Set.Size s) i (i + 1) (by omega)
      exact ⟨h1, by rw [h2]; simp; omega⟩
    · rw [if_neg hc]
      obtain ⟨h1, h2⟩ := ih a b (i + 1) (by omega)
      exact ⟨h1, by rw [h2]; simp; omega⟩

theorem getSmallestSet_lt {sets : List SetNonTS} (hne : sets ≠ []) :
    getSmallestSet sets < sets.length := by
  match sets, hne with
  | s :: t, _ =>
    rw [getSmallestSet, List.foldl_cons]
    have hstep : smallStep (0, 0, 0) s = (Set.Size s, 0, 1) := by
      simp [smallStep]
    rw [hstep]
    obtain ⟨h1, h2⟩ := smallFold_inv t (Set.Size s) 0 1 (by omega)
    rw [List.length_cons]
    omega

/-- Membership characterization of the `Intersection` scan for an arbitrary
valid scan index `j`: the result holds exactly the items present in every
input set, whichever set is scanned. -/
theorem IntersectionFrom_spec {h : String → Nat} {sets : List SetNonTS}
    (hwf : ∀ t ∈ sets, WF h t) {j : Nat} (hj : j < sets.length) :
    WF h (IntersectionFrom h sets j) ∧
    ∀ x, (x ∈ Set.List (IntersectionFrom h sets j) ↔ ∀ t ∈ sets, x ∈ Set.List t) := by
  have hget : sets.getD j ⟨[], 0, 0⟩ ∈ sets := by
    rw [List.getD_eq_getElem sets ⟨[], 0, 0⟩ hj]
    exact List.getElem_mem hj
  have hwj : WF h (sets.getD j ⟨[], 0, 0⟩) := hwf _ hget
  have hE : Set.EachS
      (fun result item =>
        (if allOthersHave h j item sets 0 then Set.Add h result [item] else result, true))
      (sets.getD j ⟨[], 0, 0⟩) (New h [])
      = (Set.List (sets.getD j ⟨[], 0, 0⟩)).foldl
          (fun result item =>
            if allOthersHave h j item sets 0 then Set.Add h result [item] else result)
          (New h []) :=
    Set_EachS_true _ hwj.1.1 _
  have hbaseSum : sumStorage (New h []).Sets = 0 := by
    have := (New_nil_WF h).2
    have : (New h []).Length = 0 := by rw [New_nil_eq]
    omega
  have hroom : sumStorage (New h []).Sets
      + (Set.List (sets.getD j ⟨[], 0, 0⟩)).length < U64 := by
    rw [hbaseSum, SetList_length hwj, hwj.2]
    have := hwj.1.2.2.2
    omega
  obtain ⟨hwF, -, hmemF⟩ := foldAddIf_spec (fun it => allOthersHave h j it sets 0)
    (Set.List (sets.getD j ⟨[], 0, 0⟩)) (New h []) (New_nil_WF h) hroom
  constructor
  · show WF h (Set.EachS _ _ (New h []))
    rw [hE]
    exact hwF
  · intro x
    show x ∈ Set.List (Set.EachS _ _ (New h [])) ↔ _
    rw [hE, hmemF x, New_nil_List]
    simp only [List.not_mem_nil, false_or]
    rw [allOthersHave_iff j x sets 0]
    constructor
    · rintro ⟨hxj, hall⟩ t ht
      obtain ⟨k, hk, hkt⟩ := List.mem_iff_getElem.mp ht
      by_cases hkj : k = j
      · subst hkj
        rw [← hkt, ← List.getD_eq_getElem sets ⟨[], 0, 0⟩ hk]
        exact hxj
      · have := hall k hk (by omega)
        have hwk : WF h (sets.getD k ⟨[], 0, 0⟩) := by
          apply hwf
          rw [List.getD_eq_getElem sets ⟨[], 0, 0⟩ hk]
          exact List.getElem_mem hk
        have hxk := (Set_Has_single hwk x).mp this
        rw [List.getD_eq_getElem sets ⟨[], 0, 0⟩ hk, hkt] at hxk
        exact hxk
    · intro hall
      refine ⟨hall _ hget, ?_⟩
      intro k hk _
      have hwk : WF h (sets.getD k ⟨[], 0, 0⟩) := by
        apply hwf
        rw [List.getD_eq_getElem sets ⟨[], 0, 0⟩ hk]
        exact List.getElem_mem hk
      refine (Set_Has_single hwk x).mpr ?_
      apply hall
      rw [List.getD_eq_getElem sets ⟨[], 0, 0⟩ hk]
      exact List.getElem_mem hk

/-- Claim C7 (confirmed): for every non-empty list of well-formed input
sets, `Intersection` returns a set whose members are exactly the items
present in every input set, and the membership of the scan result
`IntersectionFrom` is the same whichever input set is scanned first. -/
theorem C7_intersection_spec (h : String → Nat) (sets : List SetNonTS)
    (hne : sets ≠ []) (hwf : ∀ t ∈ sets, WF h t) :
    ∃ r, Intersection h sets = some r ∧ WF h r ∧
      (∀ x, x ∈ Set.List r ↔ ∀ t ∈ sets, x ∈ Set.List t) ∧
      ∀ j, j < sets.length →
        ∀ x, (x ∈ Set.List (IntersectionFrom h sets j) ↔ ∀ t ∈ sets, x ∈ Set.List t) := by
  have hall : ∀ j, j < sets.length →
      WF h (IntersectionFrom h sets j) ∧
      ∀ x, (x ∈ Set.List (IntersectionFrom h sets j) ↔ ∀ t ∈ sets, x ∈ Set.List t) :=
    fun j hj => IntersectionFrom_spec hwf hj
  have hlt : getSmallestSet sets < sets.length := getSmallestSet_lt hne
  have hmain := hall (getSmallestSet sets) hlt
  match sets, hne with
  | s :: t, _ =>
    exact ⟨IntersectionFrom h (s :: t) (getSmallestSet (s :: t)), rfl,
      hmain.1, hmain.2, fun j hj => (hall j hj).2⟩

/-- Witness for C7 at concrete inputs. -/
theorem C7_intersection_spec_witness :
    (([New h0 ["a", "b"], New h0 ["b"]] : List SetNonTS) ≠ [] ∧
      ∀ t ∈ [New h0 ["a", "b"], New h0 ["b"]], WF h0 t) ∧
    ∃ r, Intersection h0 [New h0 ["a", "b"], New h0 ["b"]] = some r ∧ WF h0 r ∧
      (∀ x, x ∈ Set.List r ↔ ∀ t ∈ [New h0 ["a", "b"], New h0 ["b"]], x ∈ Set.List t) ∧
      ∀ j, j < ([New h0 ["a", "b"], New h0 ["b"]] : List SetNonTS).length →
        ∀ x, (x ∈ Set.List (IntersectionFrom h0 [New h0 ["a", "b"], New h0 ["b"]] j) ↔
          ∀ t ∈ [New h0 ["a", "b"], New h0 ["b"]], x ∈ Set.List t) :=
  ⟨⟨by simp, by decide⟩,
    C7_intersection_spec h0 [New h0 ["a", "b"], New h0 ["b"]] (by simp) (by decide)⟩

/-! ### `getSmallestSet` tie-breaking (C5) -/

/-- Claim C5 counterexample: with two empty input sets (every size is 0),
`getSmallestSet` returns index 1, not index 0 as the claim states. -/
theorem C5_counterexample :
    Set.Size (New h0 []) = 0 ∧ getSmallestSet [New h0 [], New h0 []] = 1 := by
  decide

theorem smallFold_zero :
    ∀ (l : List SetNonTS), (∀ s ∈ l, Set.Size s = 0) → l ≠ [] →
      ∀ (j i : Nat), (l.foldl smallStep (0, j, i)).2.1 = i + l.length - 1 := by
  intro l
  induction l with
  | nil => intro _ hne; exact absurd rfl hne
  | cons s t ih =>
    intro hz _ j i
    rw [List.foldl_cons]
    have hstep : smallStep (0, j, i) s = (0, i, i + 1) := by
      simp [smallStep, hz s (List.mem_cons_self s t)]
    rw [hstep]
    cases t with
    | nil => simp
    | cons u v =>
      rw [ih (fun x hx => hz x (List.mem_cons_of_mem s hx)) (by simp) i (i + 1)]
      simp
      omega

theorem smallFold_const :
    ∀ (l : List SetNonTS) (c : Nat), c ≠ 0 → (∀ s ∈ l, Set.Size s = c) →
      ∀ (j i : Nat), (l.foldl smallStep (c, j, i)).2.1 = j := by
  intro l
  induction l with
  | nil => intro c _ _ j i; rfl
  | cons s t ih =>
    intro c hc hcs j i
    rw [List.foldl_cons]
    have hstep : smallStep (c, j, i) s = (c, j, i + 1) := by
      simp [smallStep, hcs s (List.mem_cons_self s t)]
      omega
    rw [hstep]
    exact ih c hc (fun x hx => hcs x (List.mem_cons_of_mem s hx)) j (i + 1)

/-- Claim C5 amended: `getSmallestSet` updates its candidate whenever the
current set's size is strictly smaller than the best size so far or the
best size so far is 0 (the zero sentinel re-fires on every later set);
consequently, when every input set has size 0 it returns the index of the
last set, `sets.length - 1`, and when all sizes are equal and nonzero it
returns the first index, 0. -/
theorem C5_getSmallestSet_amended (sets : List SetNonTS) (hne : sets ≠ []) :
    ((∀ s ∈ sets, Set.Size s = 0) → getSmallestSet sets = sets.length - 1) ∧
    (∀ c, c ≠ 0 → (∀ s ∈ sets, Set.Size s = c) → getSmallestSet sets = 0) := by
  match sets, hne with
  | s :: t, _ =>
    constructor
    · intro hz
      rw [getSmallestSet, List.foldl_cons]
      have hstep : smallStep (0, 0, 0) s = (0, 0, 1) := by
        simp [smallStep, hz s (List.mem_cons_self s t)]
      rw [hstep]
      cases t with
      | nil => rfl
      | cons u v =>
        rw [smallFold_zero (u :: v) (fun x hx => hz x (List.mem_cons_of_mem s hx))
          (by simp) 0 1]
        simp
    · intro c hc hcs
      rw [getSmallestSet, List.foldl_cons]
      have hstep : smallStep (0, 0, 0) s = (c, 0, 1) := by
        simp [smallStep, hcs s (List.mem_cons_self s t)]
      rw [hstep]
      exact smallFold_const t c hc (fun x hx => hcs x (List.mem_cons_of_mem s hx)) 0 1

/-- Witness for the amended C5: on two empty sets the chosen index is the
last one. -/
theorem C5_getSmallestSet_amended_witness :
    (∀ s ∈ ([New h0 [], New h0 []] : List SetNonTS), Set.Size s = 0) ∧
    getSmallestSet [New h0 [], New h0 []]
      = ([New h0 [], New h0 []] : List SetNonTS).length - 1 :=
  ⟨by decide, (C5_getSmallestSet_amended [New h0 [], New h0 []] (by simp)).1 (by decide)⟩

/-! ### `Pop` (C2, C10, C1) -/

theorem set_Pop_nil {b : set} (hb : b.Storage = []) : set.Pop b = ("", b) := by
  simp [set.Pop, hb]

theorem set_Pop_cons {b : set} {x : String} {tl : List String}
    (hb : b.Storage = x :: tl) : set.Pop b = (x, set.remove b x) := by
  simp [set.Pop, hb]

theorem scanNonEmpty_none :
    ∀ {l : List set}, scanNonEmpty l = none ↔ ∀ b ∈ l, b.size = 0 := by
  intro l
  induction l with
  | nil => simp [scanNonEmpty]
  | cons b rest ih =>
    by_cases hb : b.size = 0
    · have : scanNonEmpty (b :: rest) = (scanNonEmpty rest).map (· + 1) := by
        simp [scanNonEmpty, hb]
      rw [this]
      simp only [Option.map_eq_none']
      rw [ih]
      constructor
      · intro hall c hc
        rcases List.mem_cons.mp hc with rfl | hc
        · exact hb
        · exact hall c hc
      · intro hall c hc
        exact hall c (List.mem_cons_of_mem b hc)
    · have : scanNonEmpty (b :: rest) = some 0 := by simp [scanNonEmpty, hb]
      rw [this]
      constructor
      · intro hc; cases hc
      · intro hall
        exact absurd (hall b (List.mem_cons_self b rest)) hb

theorem scanNonEmpty_some :
    ∀ {l : List set} {i : Nat}, scanNonEmpty l = some i →
      i < l.length ∧ (l.getD i newSet).size ≠ 0 ∧
      ∀ j, j < i → (l.getD j newSet).size = 0 := by
  intro l
  induction l with
  | nil => intro i hc; cases hc
  | cons b rest ih =>
    intro i hsc
    by_cases hb : b.size = 0
    · have hstep : scanNonEmpty (b :: rest) = (scanNonEmpty rest).map (· + 1) := by
        simp [scanNonEmpty, hb]
      rw [hstep] at hsc
      obtain ⟨m, hm, rfl⟩ := Option.map_eq_some'.mp hsc
      obtain ⟨h1, h2, h3⟩ := ih hm
      refine ⟨by simpa using h1, by simpa using h2, ?_⟩
      intro j hj
      cases j with
      | zero => simpa using hb
      | succ k =>
        rw [List.getD_cons_succ]
        exact h3 k (by omega)
    · have hstep : scanNonEmpty (b :: rest) = some 0 := by simp [scanNonEmpty, hb]
      rw [hstep] at hsc
      cases hsc
      refine ⟨by simp, by simpa using hb, ?_⟩
      intro j hj
      omega

theorem bucketWF_of_mem {h : String → Nat} {n : Nat} {l : List set}
    (hb : BWF h n l) {b : set} (hbl : b ∈ l) : b.size = b.Storage.length := by
  obtain ⟨hlen, hn, hwf, _⟩ := hb
  obtain ⟨j, hj, hbj⟩ := List.mem_iff_getElem.mp hbl
  have hgd : l.getD j newSet = b := by rw [List.getD_eq_getElem l newSet hj, hbj]
  rw [← hgd]
  exact (hwf j (hlen ▸ hj)).2.1

/-- One unfolding step of the `SetNonTS.Pop` loop. -/
theorem popLoopIdx_cons (i : Nat) (rest : List Nat) (s : SetNonTS) :
    popLoopIdx (i :: rest) s =
      if (set.Pop (s.Sets.getD i newSet)).1 ≠ "" then
        ((set.Pop (s.Sets.getD i newSet)).1,
          { s with
            Sets := (s.Sets.set i (set.Pop (s.Sets.getD i newSet)).2)
            Length := (addU64 s.Length (not64 0)) })
      else popLoopIdx rest
        { s with Sets := (s.Sets.set i (set.Pop (s.Sets.getD i newSet)).2) } := rfl

theorem popLoopIdx_all_empty {s : SetNonTS} (hlen : s.Sets.length = s.Buckets) :
    ∀ (n r : Nat), r + n ≤ s.Buckets →
      (∀ j, r ≤ j → j < r + n → (s.Sets.getD j newSet).Storage = []) →
      popLoopIdx (List.range' r n) s = ("", s) := by
  intro n
  induction n with
  | zero => intro r _ _; rfl
  | succ m ih =>
    intro r hb hempty
    rw [List.range'_succ]
    have hse : (s.Sets.getD r newSet).Storage = [] :=
      hempty r (le_refl r) (by omega)
    rw [popLoopIdx_cons, set_Pop_nil hse]
    rw [if_neg (by simp)]
    rw [set_getD_self (by omega)]
    have hs2 : { s with Sets := s.Sets } = s := rfl
    rw [hs2]
    exact ih (r + 1) (by omega) (fun j hj1 hj2 => hempty j (by omega) (by omega))

theorem popLoopIdx_found {h : String → Nat} {s : SetNonTS} (hwf : WF h s)
    (hstr : "" ∉ Set.List s) :
    ∀ (n r j0 : Nat), r + n ≤ s.Buckets → r ≤ j0 → j0 < r + n →
      (s.Sets.getD j0 newSet).Storage ≠ [] →
      (∀ j, r ≤ j → j < j0 → (s.Sets.getD j newSet).Storage = []) →
      ∃ item s2, popLoopIdx (List.range' r n) s = (item, s2) ∧
        item ∈ (s.Sets.getD j0 newSet).Storage ∧ item ≠ "" ∧
        s2.Length = s.Length - 1 ∧ sumStorage s2.Sets = sumStorage s.Sets - 1 := by
  have hlen : s.Sets.length = s.Buckets := hwf.1.1
  intro n
  induction n with
  | zero => intro r j0 _ _ hc; omega
  | succ m ih =>
    intro r j0 hble hrj hjlt hne hempty
    rw [List.range'_succ]
    by_cases hrj0 : r = j0
    · subst hrj0
      obtain ⟨item, tl, hst⟩ := List.exists_cons_of_ne_nil hne
      have hmem : item ∈ (s.Sets.getD r newSet).Storage := by
        rw [hst]; exact List.mem_cons_self item tl
      have hmemL : item ∈ Set.List s := by
        rw [SetList_eq hlen, mem_storages]
        refine ⟨s.Sets.getD r newSet, ?_, hmem⟩
        have hrl : r < s.Sets.length := by omega
        rw [List.getD_eq_getElem s.Sets newSet hrl]
        exact List.getElem_mem hrl
      have hitem : item ≠ "" := fun hc => hstr (hc ▸ hmemL)
      have hq : set.Pop (s.Sets.getD r newSet)
          = (item, set.remove (s.Sets.getD r newSet) item) := set_Pop_cons hst
      rw [popLoopIdx_cons, hq]
      rw [if_pos (by simpa using hitem)]
      have hrl : r < s.Sets.length := by omega
      have hsz : (s.Sets.getD r newSet).size = (s.Sets.getD r newSet).Storage.length := by
        apply bucketWF_of_mem hwf.1
        rw [List.getD_eq_getElem s.Sets newSet hrl]
        exact List.getElem_mem hrl
      have hszpos : 0 < (s.Sets.getD r newSet).Storage.length := by
        rw [hst]; simp
      have hszlt : (s.Sets.getD r newSet).Storage.length < U64 :=
        lt_of_le_of_lt (bucket_le_sum hrl) hwf.1.2.2.2
      have hrm : set.remove (s.Sets.getD r newSet) item
          = ⟨(s.Sets.getD r newSet).Storage.erase item,
              addU64 (s.Sets.getD r newSet).size (not64 0)⟩ := by
        rw [set.remove, if_pos hmem]
      have hLpos : 0 < s.Length := by
        rw [hwf.2]
        have := bucket_le_sum hrl
        omega
      have hLlt : s.Length < U64 := by rw [hwf.2]; exact hwf.1.2.2.2
      refine ⟨item, _, rfl, hmem, hitem, ?_, ?_⟩
      · dsimp only
        exact addU64_dec hLlt hLpos
      · dsimp only
        rw [hrm]
        have hsumset := sumStorage_set
          (b := ⟨(s.Sets.getD r newSet).Storage.erase item,
            addU64 (s.Sets.getD r newSet).size (not64 0)⟩) hrl
        dsimp only at hsumset
        have hel : ((s.Sets.getD r newSet).Storage.erase item).length
            = (s.Sets.getD r newSet).Storage.length - 1 := List.length_erase_of_mem hmem
        omega
    · have hse : (s.Sets.getD r newSet).Storage = [] :=
        hempty r (le_refl r) (by omega)
      rw [popLoopIdx_cons, set_Pop_nil hse]
      rw [if_neg (by simp)]
      rw [set_getD_self (by omega)]
      have hs2 : { s with Sets := s.Sets } = s := rfl
      rw [hs2]
      exact ih (r + 1) j0 (by omega) (by omega) (by omega) hne
        (fun j hj1 hj2 => hempty j (by omega) (by omega))

theorem Set_Pop_eq_of_scan {s : SetNonTS} {i : Nat} (h0 : ¬ Set.Size s = 0)
    (hscan : scanNonEmpty s.Sets = some i) :
    Set.Pop s =
      if (set.Pop (s.Sets.getD i newSet)).1 ≠ "" then
        some ((set.Pop (s.Sets.getD i newSet)).1,
          { s with
            Sets := (s.Sets.set i (set.Pop (s.Sets.getD i newSet)).2)
            Length := (addU64 s.Length (not64 0)) })
      else some ("", { s with Sets := (s.Sets.set i (set.Pop (s.Sets.getD i newSet)).2) }) := by
  rw [Set.Pop, if_neg h0, hscan]

/-- Claim C2 counterexample: on the non-concurrent `SetNonTS` holding the
single item `"a"` (which lives in bucket 0 under this hash), `Pop` with the
random start index 1 (a legitimate draw of `rand.Intn(64)`) returns the
empty marker, removes nothing and does not decrement `Length`, refuting
"finds the first non-empty bucket in index order starting from bucket 0". -/
theorem C2_pop_counterexample :
    Set.Size (NewNonTS h0 ["a"]) = 1 ∧
    (1 : Nat) < (NewNonTS h0 ["a"]).Buckets ∧
    (SetNonTS.Pop 1 (NewNonTS h0 ["a"])).1 = "" ∧
    (SetNonTS.Pop 1 (NewNonTS h0 ["a"])).2.Length = 1 ∧
    sumStorage (SetNonTS.Pop 1 (NewNonTS h0 ["a"])).2.Sets = 1 := by
  decide

/-- Claim C2 amended: on a well-formed set that does not contain the empty
string, the concurrent `Set.Pop` behaves as the claim states: it returns
the empty marker immediately when `Size() == 0`, and otherwise pops one
item of the first bucket (in index order from 0) with a nonzero counter,
returns it and decrements `Length` by exactly one.  `SetNonTS.Pop`,
however, scans only forward from its random start index `r`: when every
bucket at or after `r` is empty it returns the empty marker leaving the set
unchanged even if the set is non-empty, and otherwise it pops from the
first non-empty bucket at or after `r`, returning the item and decrementing
`Length` by one. -/
theorem C2_pop_amended (h : String → Nat) (s : SetNonTS) (hwf : WF h s)
    (hstr : "" ∉ Set.List s) :
    (Set.Size s = 0 → Set.Pop s = some ("", s)) ∧
    (Set.Size s ≠ 0 →
      ∃ i item s2, scanNonEmpty s.Sets = some i ∧
        (∀ j, j < i → (s.Sets.getD j newSet).size = 0) ∧
        item ∈ (s.Sets.getD i newSet).Storage ∧
        Set.Pop s = some (item, s2) ∧ item ≠ "" ∧
        s2.Length = s.Length - 1 ∧ sumStorage s2.Sets = sumStorage s.Sets - 1) ∧
    (∀ r, (∀ j, r ≤ j → j < s.Buckets → (s.Sets.getD j newSet).Storage = []) →
      SetNonTS.Pop r s = ("", s)) ∧
    (∀ r j0, r ≤ j0 → j0 < s.Buckets →
      (s.Sets.getD j0 newSet).Storage ≠ [] →
      (∀ j, r ≤ j → j < j0 → (s.Sets.getD j newSet).Storage = []) →
      ∃ item s2, SetNonTS.Pop r s = (item, s2) ∧
        item ∈ (s.Sets.getD j0 newSet).Storage ∧ item ≠ "" ∧
        s2.Length = s.Length - 1 ∧ sumStorage s2.Sets = sumStorage s.Sets - 1) := by
  have hlen : s.Sets.length = s.Buckets := hwf.1.1
  refine ⟨?_, ?_, ?_, ?_⟩
  · intro h0
    rw [Set.Pop, if_pos h0]
  · intro h0
    rcases hscan : scanNonEmpty s.Sets with _ | i
    · exfalso
      have hz := scanNonEmpty_none.mp hscan
      have hzero : sumStorage s.Sets = 0 := by
        rw [sumStorage]
        apply List.sum_eq_zero
        intro x hx
        rw [List.mem_map] at hx
        obtain ⟨b, hbm, rfl⟩ := hx
        rw [← bucketWF_of_mem hwf.1 hbm]
        exact hz b hbm
      exact h0 (by rw [Set.Size, hwf.2, hzero])
    · obtain ⟨hilt, hisz, hprev⟩ := scanNonEmpty_some hscan
      have hil : i < s.Sets.length := hilt
      have hsz : (s.Sets.getD i newSet).size = (s.Sets.getD i newSet).Storage.length := by
        apply bucketWF_of_mem hwf.1
        rw [List.getD_eq_getElem s.Sets newSet hil]
        exact List.getElem_mem hil
      have hne : (s.Sets.getD i newSet).Storage ≠ [] := by
        intro hc
        rw [hc, List.length_nil] at hsz
        exact hisz hsz
      obtain ⟨item, tl, hst⟩ := List.exists_cons_of_ne_nil hne
      have hmem : item ∈ (s.Sets.getD i newSet).Storage := by
        rw [hst]; exact List.mem_cons_self item tl
      have hmemL : item ∈ Set.List s := by
        rw [SetList_eq hlen, mem_storages]
        refine ⟨s.Sets.getD i newSet, ?_, hmem⟩
        rw [List.getD_eq_getElem s.Sets newSet hil]
        exact List.getElem_mem hil
      have hitem : item ≠ "" := fun hc => hstr (hc ▸ hmemL)
      have hq : set.Pop (s.Sets.getD i newSet)
          = (item, set.remove (s.Sets.getD i newSet) item) := set_Pop_cons hst
      have hLpos : 0 < s.Length := by
        have : Set.Size s = s.Length := rfl
        omega
      have hLlt : s.Length < U64 := by rw [hwf.2]; exact hwf.1.2.2.2
      have hrm : set.remove (s.Sets.getD i newSet) item
          = ⟨(s.Sets.getD i newSet).Storage.erase item,
              addU64 (s.Sets.getD i newSet).size (not64 0)⟩ := by
        rw [set.remove, if_pos hmem]
      refine ⟨i, item,
        { s with
          Sets := (s.Sets.set i (set.Pop (s.Sets.getD i newSet)).2)
          Length := (addU64 s.Length (not64 0)) },
        rfl, hprev, hmem, ?_, hitem, ?_, ?_⟩
      · rw [Set_Pop_eq_of_scan h0 hscan, hq]
        rw [if_pos (by simpa using hitem)]
      · dsimp only
        exact addU64_dec hLlt hLpos
      · dsimp only
        rw [hq]
        dsimp only
        rw [hrm]
        have hsumset := sumStorage_set
          (b := ⟨(s.Sets.getD i newSet).Storage.erase item,
            addU64 (s.Sets.getD i newSet).size (not64 0)⟩) hil
        dsimp only at hsumset
        have hel : ((s.Sets.getD i newSet).Storage.erase item).length
            = (s.Sets.getD i newSet).Storage.length - 1 := List.length_erase_of_mem hmem
        omega
  · intro r hempty
    rw [SetNonTS.Pop]
    by_cases hr : r < s.Buckets
    · exact popLoopIdx_all_empty hlen (s.Buckets - r) r (by omega)
        (fun j hj1 hj2 => hempty j hj1 (by omega))
    · have h0 : s.Buckets - r = 0 := by omega
      rw [h0]
      rfl
  · intro r j0 hrj hjb hne hempty
    rw [SetNonTS.Pop]
    exact popLoopIdx_found hwf hstr (s.Buckets - r) r j0 (by omega) hrj (by omega)
      hne hempty

/-- Witness for the amended C2 on the concrete set `{"a"}`. -/
theorem C2_pop_amended_witness :
    (WF h0 (New h0 ["a"]) ∧ "" ∉ Set.List (New h0 ["a"]) ∧
      Set.Size (New h0 ["a"]) ≠ 0) ∧
    ∃ i item s2, scanNonEmpty (New h0 ["a"]).Sets = some i ∧
      (∀ j, j < i → ((New h0 ["a"]).Sets.getD j newSet).size = 0) ∧
      item ∈ ((New h0 ["a"]).Sets.getD i newSet).Storage ∧
      Set.Pop (New h0 ["a"]) = some (item, s2) ∧ item ≠ "" ∧
      s2.Length = (New h0 ["a"]).Length - 1 ∧
      sumStorage s2.Sets = sumStorage (New h0 ["a"]).Sets - 1 :=
  ⟨⟨by decide, by decide, by decide⟩,
    (C2_pop_amended h0 (New h0 ["a"]) (by decide) (by decide)).2.1 (by decide)⟩

/-- Claim C1 (code bug): starting from `New()`, `Add("")` then `Pop()` on
the concurrent `Set` leaves `Length == 1` while every bucket is empty
(`sum of bucket sizes == 0`): popping the empty-string element removes it
from its bucket but skips the `Length` decrement because `""` doubles as
the empty sentinel, so the invariant `Length == sum of all bucket sizes`
is broken in a state reachable by public operations. -/
theorem C1_invariant_broken_by_pop_of_empty_string :
    Set.Size (Set.Add h0 (New h0 []) [""]) = 1 ∧
    sumStorage (Set.Add h0 (New h0 []) [""]).Sets = 1 ∧
    (Set.Pop (Set.Add h0 (New h0 []) [""])).map
      (fun p => (p.1, p.2.Length, sumStorage p.2.Sets)) = some ("", 1, 0) := by
  decide

/-- Claim C3 (code bug): `Has()` with zero items returns `true`, not
`false`, on any non-empty set (the `has := true` accumulator is returned
unchanged when the loop body never runs); only the empty set returns
`false`, via the `Size() == 0` short-circuit.  This contradicts the claim
and the function's own doc comment ("It returns false if nothing is
passed"). -/
theorem C3_has_of_nothing :
    Set.Has h0 (New h0 ["a"]) [] = true ∧ Set.Has h0 (New h0 []) [] = false := by
  decide

/-- Claim C4 (code bug): with items `"a"` and `"b"` in different buckets
(bucket 0 and bucket 1 under `hb`) and a visitor that always returns
`false`, `Each` still invokes the visitor on `"b"` after the visitor
returned `false` on `"a"`: the `break` leaves only the inner per-bucket
loop, so traversal does not stop early across buckets. -/
theorem C4_each_break_only_inner :
    Set.GetBucketID hb (New hb ["a", "b"]) "a" = 0 ∧
    Set.GetBucketID hb (New hb ["a", "b"]) "b" = 1 ∧
    Set.Each (New hb ["a", "b"]) (fun _ => false) = ["a", "b"] := by
  decide

/-- Claim C10 (confirmed): the empty string is accepted as an element —
after `Add("")`, `Has("")` is true and `Size()` went from 0 to 1 — but
`Pop` on the concurrent `Set` whose only element is `""` removes the
element from its bucket (total bucket size drops to 0) yet returns the
sentinel `""` and leaves `Length` at 1. -/
theorem C10_empty_string_sentinel :
    Set.Size (New h0 []) = 0 ∧
    Set.Has h0 (Set.Add h0 (New h0 []) [""]) [""] = true ∧
    Set.Size (Set.Add h0 (New h0 []) [""]) = 1 ∧
    (Set.Pop (Set.Add h0 (New h0 []) [""])).map
      (fun p => (p.1, p.2.Length, sumStorage p.2.Sets)) = some ("", 1, 0) := by
  decide

end SetSpec
